import Mathlib

/-!
# Verification of `rxparse.py` (ehhapp-formulary)

Shallow embedding of the EHHOP formulary reconciliation tool `rxparse.py`.
Python strings are modelled as `String` / `List Char` (ASCII semantics for
case conversion and whitespace), Python dicts as insertion-ordered
association lists (`List (String × α)`), `datetime` values as abstract `Nat`
timestamps (only their order is used by the code), and the `input()` operator
prompt as a pure oracle `String → String → Bool` together with an explicit
log of the prompts that were issued.  Reading an unassigned local variable
(Python `UnboundLocalError`) is modelled with `Except String`.

The regular expressions the code builds at run time from data
(`re.search(dname, ...)` and `re.compile(r"\b" + ddose)`) are embedded by a
small matcher (`reSearch`) that is faithful to Python `re` on the pattern
fragment the program actually constructs: plain characters, the
metacharacter `.` (any character except newline), and a leading word
boundary.  The two fixed regexes (`_NAMEGARBAGE_`, `_DOSECOSTPATT_`) are
embedded by dedicated matchers mirroring the leftmost / greedy / lazy
backtracking semantics of those concrete patterns.
-/

namespace Rxparse

/-- ASCII whitespace recognised by Python `str.split()` / `str.strip()`. -/
def isPySpace (c : Char) : Bool :=
  c = ' ' || c = '\t' || c = '\n' || c = '\r' || c = '\x0b' || c = '\x0c'

/-- Helper for `pyWords`: accumulate the current word (reversed) while
splitting on runs of whitespace, as Python `str.split()` does. -/
def wordsAux : List Char → List Char → List (List Char)
  | [], acc => if acc.isEmpty then [] else [acc.reverse]
  | c :: rest, acc =>
    if isPySpace c then
      if acc.isEmpty then wordsAux rest [] else acc.reverse :: wordsAux rest []
    else wordsAux rest (c :: acc)

/-- Python `s.split()`: whitespace-delimited words, no empty words. -/
def pyWords (s : String) : List (List Char) := wordsAux s.data []

/-- Python `str.lower()` (ASCII). -/
def lowerStr (s : String) : String := String.mk (s.data.map Char.toLower)

/-- `match_string` (rxparse.py line 291): `set(string.split()) < set(phrase.split())`,
Python's *strict* subset test on the word sets. -/
def match_string (string phrase : String) : Bool :=
  let string_split := pyWords string
  let phrase_split := pyWords phrase
  string_split.all (fun w => phrase_split.contains w) &&
    phrase_split.any (fun w => !(string_split.contains w))

/-- `price_disc` (rxparse.py line 301): `True` iff the two cost strings differ. -/
def price_disc (dcost invcost : String) : Bool := dcost != invcost

/-! ## The run-time regex fragment (`re.search`) -/

/-- One item of a compiled pattern: a literal character, `.` (any character
except a newline), or the word boundary `\b`. -/
inductive RItem where
  | lit : Char → RItem
  | anyNL : RItem
  | wordB : RItem
deriving Repr, DecidableEq

/-- Python `\w` (ASCII): letters, digits, underscore. -/
def isWordChar (c : Char) : Bool := c.isAlphanum || c = '_'

def isWordOpt : Option Char → Bool
  | some c => isWordChar c
  | none => false

/-- Compile a data string used as a pattern, as Python `re` reads it:
`.` becomes the any-but-newline metacharacter, every other character of the
fragment is a literal. -/
def compilePat (pat : List Char) : List RItem :=
  pat.map (fun c => if c = '.' then RItem.anyNL else RItem.lit c)

/-- Match a compiled pattern at the current position; `prev` is the character
immediately to the left (for `\b`). -/
def matchItems : List RItem → Option Char → List Char → Bool
  | [], _, _ => true
  | RItem.wordB :: ps, prev, s =>
      (isWordOpt prev != isWordOpt s.head?) && matchItems ps prev s
  | RItem.lit c :: ps, _, x :: xs => (x == c) && matchItems ps (some x) xs
  | RItem.anyNL :: ps, _, x :: xs => (x != '\n') && matchItems ps (some x) xs
  | RItem.lit _ :: _, _, [] => false
  | RItem.anyNL :: _, _, [] => false

/-- Try every start position, left to right (including the end of string). -/
def searchFrom (ps : List RItem) : Option Char → List Char → Bool
  | prev, [] => matchItems ps prev []
  | prev, c :: rest => matchItems ps prev (c :: rest) || searchFrom ps (some c) rest

/-- Python `re.search(pat, s) is not None` for the embedded fragment. -/
def reSearch (pat : List RItem) (s : List Char) : Bool := searchFrom pat none s

/-- Literal (regex-free) substring containment, written from the spec's words
for claim C6: "the formulary drug name must occur as a substring within the
invoice name+dose string".  To be compared with the code's `re.search`. -/
def isPrefixLit : List Char → List Char → Bool
  | [], _ => true
  | _ :: _, [] => false
  | c :: cs, x :: xs => (x == c) && isPrefixLit cs xs

/-- Spec-worded containment check (literal substring at any position). -/
def containsSub (needle : List Char) : List Char → Bool
  | [] => isPrefixLit needle []
  | x :: rest => isPrefixLit needle (x :: rest) || containsSub needle rest

/-! ## Data model -/

/-- `InvRec` namedtuple (rxparse.py line 7).  `REQDATE` is a parsed
`datetime` for invoice records (abstracted to a `Nat` timestamp) and the
string `"NaN"` for formulary-derived entries, modelled as `none`. -/
structure InvRec where
  NAMEDOSE : String
  NAME : String
  DOSE : String
  COST : String
  CATEGORY : String
  ITEMNUM : String
  REQDATE : Option Nat
deriving Repr, DecidableEq

/-- Insertion-ordered dictionary: first-position lookup. -/
def lookupAL {α : Type} : List (String × α) → String → Option α
  | [], _ => none
  | (k', v) :: rest, k => if k' = k then some v else lookupAL rest k

/-- Python `d[k] = v`: replace in place if the key exists, else append. -/
def insertAL {α : Type} : List (String × α) → String → α → List (String × α)
  | [], k, v => [(k, v)]
  | (k', v') :: rest, k, v =>
    if k' = k then (k, v) :: rest else (k', v') :: insertAL rest k v

def keysOf {α : Type} (t : List (String × α)) : List String := t.map Prod.fst

/-- One filtered invoice CSV row, with the positional fields the code reads:
index 2 (item number), 3 (name+dose), 8 (category), 12 (requisition datetime,
abstracted to a `Nat` timestamp since only its order is used), 15 (cost). -/
structure CsvRow where
  itemnum : String
  namedose : String
  category : String
  reqdate : Nat
  cost : String
deriving Repr, DecidableEq

/-- The `InvRec` built from a row in `store_pricetable` (rxparse.py line 48). -/
def rowEntry (item : CsvRow) : InvRec :=
  ⟨item.namedose, "NaN", "NaN", item.cost, item.category, item.itemnum, some item.reqdate⟩

/-- `entry.REQDATE > pricetable[k].REQDATE` — both sides are real datetimes
on every path the code executes. -/
def dateGt : Option Nat → Option Nat → Bool
  | some a, some b => b < a
  | _, _ => false

/-- Loop body of `store_pricetable` (rxparse.py lines 39-66): insert a new
key, or replace the stored entry only on a strictly later requisition date. -/
def storeStep (pricetable : List (String × InvRec)) (item : CsvRow) : List (String × InvRec) :=
  let entry := rowEntry item
  let k := entry.NAMEDOSE
  match lookupAL pricetable k with
  | none => insertAL pricetable k entry
  | some cur =>
    if dateGt entry.REQDATE cur.REQDATE then insertAL pricetable k entry
    else pricetable

/-- `store_pricetable` (rxparse.py line 29): keyed by `NAMEDOSE`; a stored
entry is replaced only by a strictly later-dated record. -/
def store_pricetable (invoice : List CsvRow) : List (String × InvRec) :=
  invoice.foldl storeStep []

/-- First-encountered maximum-date row of a list (the value `store_pricetable`
keeps for one key), as a fold with the same strict comparison. -/
def firstMaxAux (best : CsvRow) : List CsvRow → CsvRow
  | [] => best
  | r :: rest => if best.reqdate < r.reqdate then firstMaxAux r rest else firstMaxAux best rest

def firstMax : List CsvRow → Option CsvRow
  | [] => none
  | r :: rest => some (firstMaxAux r rest)

/-- The per-key view of `storeStep`: how the stored entry for one key evolves
when one more row with that key arrives. -/
def fmStep (acc : Option InvRec) (r : CsvRow) : Option InvRec :=
  match acc with
  | none => some (rowEntry r)
  | some cur => if dateGt (some r.reqdate) cur.REQDATE then some (rowEntry r) else some cur

/-- `FormularyRecord` (rxparse.py line 91). -/
structure FormularyRecord where
  NAME : String
  BLACKLISTED : Bool
  DOSECOST : List (String × String)
  PRICETABLE : List (String × InvRec)
  SUBCATEGORY : String
  CATEGORY : String
deriving Repr, DecidableEq

/-- The fresh per-dose entry `_set_PRICETABLE` builds (rxparse.py line 182). -/
def doseEntryRec (name category namedose dose cost : String) : InvRec :=
  ⟨namedose, name, dose, cost, category, "NaN", none⟩

/-- One `_set_PRICETABLE` loop iteration (rxparse.py lines 177-188). -/
def doseInsert (name category : String) (pt : List (String × InvRec))
    (dc : String × String) : List (String × InvRec) :=
  let namedose := name ++ " " ++ dc.2
  insertAL pt namedose (doseEntryRec name category namedose dc.2 dc.1)

/-- The dictionary `_set_PRICETABLE` produces: one write per `DOSECOST` pair,
keyed `"{NAME} {dose}"`, into the existing dictionary. -/
def buildPT (name category : String) (dc : List (String × String))
    (pt : List (String × InvRec)) : List (String × InvRec) :=
  dc.foldl (doseInsert name category) pt

/-- `FormularyRecord._set_PRICETABLE` (rxparse.py line 173). -/
def set_PRICETABLE (r : FormularyRecord) : FormularyRecord :=
  { r with PRICETABLE := buildPT r.NAME r.CATEGORY r.DOSECOST r.PRICETABLE }

/-- Proof support: the value the `_set_PRICETABLE` loop leaves under key `k`
(the entry of the last `DOSECOST` pair keyed `k`), threading the incoming
value for keys the loop never writes. -/
def lastDoseValAux (name category k : String) (acc : Option InvRec) :
    List (String × String) → Option InvRec
  | [] => acc
  | d :: rest =>
    lastDoseValAux name category k
      (if name ++ " " ++ d.2 = k
       then some (doseEntryRec name category (name ++ " " ++ d.2) d.2 d.1)
       else acc) rest

/-- Proof support: the keys `_set_PRICETABLE` appends to an existing table
(first occurrences of dose keys not already present). -/
def newKeys (name : String) (seen : List String) : List (String × String) → List String
  | [] => []
  | d :: rest =>
    if name ++ " " ++ d.2 ∈ seen then newKeys name seen rest
    else (name ++ " " ++ d.2) :: newKeys name (seen ++ [name ++ " " ++ d.2]) rest

/-! ## `_NAMEGARBAGE_` and name extraction

The fixed pattern `(.+)(\s\(.+\).*)|(.+)(\s-.*)` is applied with `re.match`
(anchored at the start, matching a prefix).  Group 1 (or group 3 for the
second alternative) is the longest non-empty newline-free prefix whose
remaining suffix starts the corresponding annotation. -/

/-- After the inner `.+` has consumed at least its first character: is there
a `)` further on with no newline before it? -/
def containsClose : List Char → Bool
  | [] => false
  | ')' :: _ => true
  | c :: rest => (c != '\n') && containsClose rest

/-- Does `rest` (the text after `\(`) match `.+\)` (followed by `.*`)? -/
def scanClose : List Char → Bool
  | [] => false
  | c :: rest => (c != '\n') && containsClose rest

/-- Does a suffix begin the first annotation form `\s\(.+\).*`? -/
def checkSuffix1 : List Char → Bool
  | w :: '(' :: rest => isPySpace w && scanClose rest
  | _ => false

/-- Does a suffix begin the second annotation form `\s-.*`? -/
def checkSuffix2 : List Char → Bool
  | w :: '-' :: _ => isPySpace w
  | _ => false

def notNLall (l : List Char) : Bool := l.all (fun c => c != '\n')

/-- Greedy `(.+)`: the longest non-empty newline-free prefix of length at
most `n` whose complement satisfies `check`. -/
def findSplit (check : List Char → Bool) (s : List Char) : Nat → Option (List Char)
  | 0 => none
  | n + 1 =>
    let a := s.take (n + 1)
    if notNLall a && check (s.drop (n + 1)) then some a
    else findSplit check s n

/-- Group 1 of `_NAMEGARBAGE_` when the first alternative matches. -/
def findName1 (s : List Char) : Option (List Char) :=
  findSplit checkSuffix1 s (s.length - 1)

/-- Group 3 of `_NAMEGARBAGE_` when the second alternative matches. -/
def findName2 (s : List Char) : Option (List Char) :=
  findSplit checkSuffix2 s (s.length - 1)

/-- `FormularyRecord._set_NAMEandBLACKLISTED` (rxparse.py line 121) on the
raw name field; `none` models the `IndexError` Python raises on
`namestring[0]` for an empty field. -/
def set_NAMEandBLACKLISTED (namestring : String) : Option (String × Bool) :=
  match namestring.data with
  | [] => none
  | c :: _ =>
    if c = '~' then
      some (String.mk (namestring.data.dropWhile (fun x => x == '~')), true)
    else
      match findName1 namestring.data with
      | some a => some (String.mk a, false)
      | none =>
        match findName2 namestring.data with
        | some a => some (String.mk a, false)
        | none => some (namestring, false)

/-! ## `_DOSECOSTPATT_` and dose/cost extraction

`(\$\d+[.0-9]?\d*-\$\d+[.0-9]?\d*|\$\d+[.0-9]?\d*)(?:\s)(?:\()([^\n]*?)(?:\))`
(verbose-mode whitespace removed).  Every quantifier applies to a single
character class, so backtracking is modelled by candidate lists in the
engine's preference order; the first candidate that lets the rest of the
pattern succeed wins. -/

/-- Descending splits `[(take n, drop n), ..., (take 0, drop 0)]`. -/
def splitsDescFrom (s : List Char) : Nat → List (List Char × List Char)
  | 0 => [(s.take 0, s.drop 0)]
  | n + 1 => (s.take (n + 1), s.drop (n + 1)) :: splitsDescFrom s n

/-- Greedy `C*`: candidate splits, longest first. -/
def starGreedy (p : Char → Bool) (s : List Char) : List (List Char × List Char) :=
  splitsDescFrom s (s.takeWhile p).length

/-- Greedy `C+`: the same without the empty split. -/
def plusGreedy (p : Char → Bool) (s : List Char) : List (List Char × List Char) :=
  (starGreedy p s).dropLast

/-- Greedy `C?`: one character if possible first, then nothing. -/
def optGreedy (p : Char → Bool) (s : List Char) : List (List Char × List Char) :=
  match s with
  | c :: rest => if p c then [([c], rest), ([], c :: rest)] else [([], c :: rest)]
  | [] => [([], [])]

def isDotDigit (c : Char) : Bool := c = '.' || c.isDigit

def concatMap {α β : Type} (f : α → List β) : List α → List β
  | [] => []
  | a :: l => f a ++ concatMap f l

/-- `\$\d+[.0-9]?\d*`: candidates (consumed text, rest), preference order. -/
def moneyM : List Char → List (List Char × List Char)
  | [] => []
  | c :: rest =>
    if c = '$' then
      concatMap (fun d1 =>
        concatMap (fun d2 =>
          (starGreedy Char.isDigit d2.2).map
            (fun d3 => ('$' :: (d1.1 ++ (d2.1 ++ d3.1)), d3.2)))
          (optGreedy isDotDigit d1.2))
        (plusGreedy Char.isDigit rest)
    else []

/-- The continuation of the range alternative after the first amount:
a `-` followed by a second amount. -/
def dashTail (m1 : List Char × List Char) : List (List Char × List Char) :=
  match m1.2 with
  | [] => []
  | c :: r2 =>
    if c = '-' then (moneyM r2).map (fun m2 => (m1.1 ++ '-' :: m2.1, m2.2)) else []

/-- The range alternative `\$…-\$…`. -/
def rangeM (s : List Char) : List (List Char × List Char) :=
  concatMap dashTail (moneyM s)

/-- Group 1 of `_DOSECOSTPATT_`: the range alternative is tried first. -/
def group1M (s : List Char) : List (List Char × List Char) :=
  rangeM s ++ moneyM s

/-- `([^\n]*?)` before `\)`: lazily take newline-free characters up to the
first `)`. -/
def lazyInner : List Char → Option (List Char × List Char)
  | [] => none
  | c :: rest =>
    if c = ')' then some ([], rest)
    else if c = '\n' then none
    else (lazyInner rest).map (fun p => (c :: p.1, p.2))

/-- `(?:\s)(?:\()([^\n]*?)(?:\))` after group 1: returns (group 2, rest). -/
def tailM : List Char → Option (List Char × List Char)
  | w :: c :: rest =>
    if isPySpace w then (if c = '(' then lazyInner rest else none) else none
  | _ => none

def findFirst {α β : Type} (f : α → Option β) : List α → Option β
  | [] => none
  | a :: l =>
    match f a with
    | some b => some b
    | none => findFirst f l

/-- `_DOSECOSTPATT_` anchored at the current position; on success returns
the two capture groups and the input remaining after the match. -/
def matchDCAt (s : List Char) : Option ((List Char × List Char) × List Char) :=
  findFirst (fun g1 => (tailM g1.2).map (fun t => ((g1.1, t.1), t.2))) (group1M s)

/-- `re.findall` scan: try each position left to right and resume after each
match.  `fuel` serves only for termination; every match consumes at least
two characters, so `s.length` is always enough fuel. -/
def findallAux : Nat → List Char → List (List Char × List Char)
  | 0, _ => []
  | _ + 1, [] => []
  | fuel + 1, c :: rest =>
    match matchDCAt (c :: rest) with
    | some (g, r) => g :: findallAux fuel r
    | none => findallAux fuel rest

/-- `FormularyRecord._get_DOSECOST` (rxparse.py line 150):
`_DOSECOSTPATT_.findall(...)` as a list of (cost, dose) pairs. -/
def get_DOSECOST (dosecoststring : String) : List (String × String) :=
  (findallAux dosecoststring.data.length dosecoststring.data).map
    (fun g => (String.mk g.1, String.mk g.2))

/-- `FormularyRecord.__init__` (rxparse.py line 114) on a parsed field list;
`none` models the `IndexError` on an empty name field.  Fields past the end
of the list (an `IndexError` in Python for records with fewer than four
fields) are modelled by the empty string; the claims only use four-field
records. -/
def ofRecord (record : List String) : Option FormularyRecord :=
  match set_NAMEandBLACKLISTED (record.getD 0 "") with
  | none => none
  | some nb =>
    some ⟨nb.1, nb.2, get_DOSECOST (record.getD 1 ""), [], record.getD 2 "", record.getD 3 ""⟩

/-! ## Markdown serialization and re-ingestion (claim C8) -/

/-- `', '.join(...)` at character level. -/
def joinComma : List (List Char) → List Char
  | [] => []
  | [x] => x
  | x :: y :: rest => x ++ ',' :: ' ' :: joinComma (y :: rest)

/-- `FormularyRecord._to_markdown` (rxparse.py line 203):
`> {prefix}{NAME} | {cost (dose), ...} | {SUBCATEGORY}`. -/
def to_markdown (r : FormularyRecord) : List Char :=
  let pfx : List Char := if r.BLACKLISTED then ['~'] else []
  let dosesandcosts :=
    joinComma (r.PRICETABLE.map
      (fun kv => kv.2.COST.data ++ ' ' :: '(' :: kv.2.DOSE.data ++ [')']))
  '>' :: ' ' :: pfx ++ r.NAME.data ++ ' ' :: '|' :: ' ' :: dosesandcosts
    ++ ' ' :: '|' :: ' ' :: r.SUBCATEGORY.data

/-- `l.lstrip("> ")`. -/
def pyLstripGt (l : List Char) : List Char := l.dropWhile (fun c => c == '>' || c == ' ')

/-- `l.rstrip()`. -/
def pyRstrip (l : List Char) : List Char := (l.reverse.dropWhile isPySpace).reverse

/-- `l.strip()`. -/
def pyStrip (l : List Char) : List Char := pyRstrip (l.dropWhile isPySpace)

/-- Python `str.split(delim)` for a one-character delimiter (always returns
at least one piece, empty pieces preserved). -/
def splitOnChar (delim : Char) : List Char → List (List Char)
  | [] => [[]]
  | c :: rest =>
    let r := splitOnChar delim rest
    if c = delim then [] :: r
    else
      match r with
      | f :: fs => (c :: f) :: fs
      | [] => [[c]]

/-- `parse_mddata` (rxparse.py line 265) on one line:
`line.lstrip("> ").rstrip().split("|")`, then `strip()` of every field. -/
def parse_mddata_line (line : List Char) : List String :=
  (splitOnChar '|' (pyRstrip (pyLstripGt line))).map (fun f => String.mk (pyStrip f))

/-- Re-ingestion of one serialized drug line through the formulary path:
`read_md` (rxparse.py line 259) appends `' | ' + category` to a `>` line,
then the fields go through `parse_mddata` and the record constructor. -/
def reparseLine (line : List Char) (category : String) : Option FormularyRecord :=
  ofRecord (parse_mddata_line (line ++ ' ' :: '|' :: ' ' :: category.data))

/-! ### Well-formedness predicates for the round-trip claim (C8) -/

/-- A dollar amount as `_DOSECOSTPATT_`'s money sub-pattern fully matches it:
`$`, a non-empty digit run, optionally `.` and another non-empty digit run. -/
def WFmoneyB : List Char → Bool
  | [] => false
  | c :: rest =>
    let ds := rest.takeWhile Char.isDigit
    let r2 := rest.dropWhile Char.isDigit
    (c == '$') && (!ds.isEmpty) &&
      (r2.isEmpty ||
        ((r2.head? == some '.') && (!r2.tail.isEmpty) && r2.tail.all Char.isDigit))

/-- Split a character list at its first `-`. -/
def splitDash : List Char → Option (List Char × List Char)
  | [] => none
  | c :: rest =>
    if c = '-' then some ([], rest)
    else (splitDash rest).map (fun p => (c :: p.1, p.2))

/-- A cost string: a single dollar amount or a `-`-separated range of two. -/
def WFcostB (C : List Char) : Bool :=
  match splitDash C with
  | none => WFmoneyB C
  | some (m1, m2) => WFmoneyB m1 && WFmoneyB m2

/-- Structured form of `WFmoneyB`, used in the round-trip proof. -/
def WFmoneyP (C : List Char) : Prop :=
  ∃ ds : List Char, ds ≠ [] ∧ (∀ c ∈ ds, c.isDigit = true) ∧
    (C = '$' :: ds ∨
      ∃ ds2 : List Char, ds2 ≠ [] ∧ (∀ c ∈ ds2, c.isDigit = true) ∧
        C = '$' :: ds ++ '.' :: ds2)

/-- Structured form of `WFcostB`. -/
def WFcostP (C : List Char) : Prop :=
  WFmoneyP C ∨ ∃ m1 m2, WFmoneyP m1 ∧ WFmoneyP m2 ∧ C = m1 ++ '-' :: m2

/-- A dose string that survives the round trip: no `)` (the lazy group stops
at the first `)`), no newline (excluded by the dose group's class), and no
`|` (the Markdown field separator). -/
def goodDoseB (D : List Char) : Bool :=
  D.all (fun c => c != ')' && c != '\n' && c != '|')

/-- A drug name that survives the round trip: non-empty, free of the field
separator `|`, not starting with the blacklist marker `~`, the drug-line
marker `>` or whitespace (stripped by `lstrip("> ")` / `strip()`), and not
ending in whitespace (stripped by `strip()`). -/
def wfNameB (N : List Char) : Bool :=
  (match N with
   | [] => false
   | c :: _ => !(c == '~' || c == '>' || isPySpace c)) &&
  (match N.reverse with
   | [] => false
   | c :: _ => !(isPySpace c)) &&
  N.all (fun c => c != '|')

/-- The serialized form of one dose/cost pair: `cost (dose)`. -/
def segFn (d : String × String) : List Char :=
  d.1.data ++ ' ' :: '(' :: d.2.data ++ [')']

/-! ## The matching engine (`formulary_update`, rxparse.py lines 308-380) -/

/-- `v._replace(COST = invcost, ITEMNUM = itemnum)`. -/
def replaceEntry (v : InvRec) (invcost itemnum : String) : InvRec :=
  { v with COST := invcost, ITEMNUM := itemnum }

/-- The diagnostic counters and the console interactions of one
`formulary_update` call: soft-match / match / price-change counters, the
operator prompts issued for poor matches, and the "has no matches" reports. -/
structure MatchStats where
  smatchcount : Nat
  mcount : Nat
  pricechanges : Nat
  prompts : List (String × String)
  unmatched : List String
deriving Repr, DecidableEq

/-- Body of the loop over the invoice price table (rxparse.py lines 335-375)
for one formulary per-dose entry `(k, v)` and one price-table item `ndir`.
Returns the record's updated price table, the updated stats, and the value
the iteration leaves in `has_match` (assigned `False` at the top of every
iteration, `True` only on a dose-confirmed soft match). -/
def innerStep (oracle : String → String → Bool) (dname ddose dcost k : String)
    (v : InvRec) (acc : List (String × InvRec) × MatchStats) (ndir : String × InvRec) :
    List (String × InvRec) × MatchStats × Bool :=
  let ptab := acc.1
  let st := acc.2
  let invnamedose := lowerStr ndir.1
  let invcost := lowerStr ndir.2.COST
  let itemnum := ndir.2.ITEMNUM
  if reSearch (compilePat dname.data) invnamedose.data then
    if match_string dname invnamedose then
      let st1 := { st with smatchcount := st.smatchcount + 1 }
      if reSearch (RItem.wordB :: compilePat ddose.data) invnamedose.data then
        let st2 := { st1 with mcount := st1.mcount + 1 }
        if price_disc dcost invcost then
          (insertAL ptab k (replaceEntry v invcost itemnum),
           { st2 with pricechanges := st2.pricechanges + 1 }, true)
        else (ptab, st2, true)
      else (ptab, st1, false)
    else
      if reSearch (RItem.wordB :: compilePat ddose.data) invnamedose.data then
        let st1 := { st with prompts := st.prompts ++ [(dname ++ " " ++ ddose, invnamedose)] }
        if oracle (dname ++ " " ++ ddose) invnamedose then
          (insertAL ptab k (replaceEntry v invcost itemnum),
           { st1 with mcount := st1.mcount + 1 }, false)
        else (ptab, st1, false)
      else (ptab, st, false)
  else (ptab, st, false)

/-- The full loop over the price table for one per-dose entry; threads the
function-wide `has_match` variable as `Option Bool` (`none` = never assigned). -/
def entryLoop (oracle : String → String → Bool) (dname ddose dcost k : String)
    (v : InvRec) (pricetable : List (String × InvRec))
    (start : List (String × InvRec) × MatchStats × Option Bool) :
    List (String × InvRec) × MatchStats × Option Bool :=
  pricetable.foldl (fun acc ndir =>
    let r := innerStep oracle dname ddose dcost k v (acc.1, acc.2.1) ndir
    (r.1, r.2.1, some r.2.2)) start

/-- One iteration of the loop over a record's per-dose entries
(rxparse.py lines 326-378), including the final `if has_match == False`
check, which raises `UnboundLocalError` when `has_match` was never assigned
(empty price table). -/
def doseEntryStep (oracle : String → String → Bool)
    (pricetable : List (String × InvRec))
    (acc : List (String × InvRec) × MatchStats × Option Bool)
    (kv : String × InvRec) :
    Except String (List (String × InvRec) × MatchStats × Option Bool) :=
  let dcost := lowerStr kv.2.COST
  let dname := lowerStr kv.2.NAME
  let ddose := lowerStr kv.2.DOSE
  let r := entryLoop oracle dname ddose dcost kv.1 kv.2 pricetable acc
  match r.2.2 with
  | none => Except.error "UnboundLocalError: local variable has_match referenced before assignment"
  | some b =>
    if b = false then
      Except.ok (r.1, { r.2.1 with unmatched := r.2.1.unmatched ++ [dname ++ " " ++ ddose] }, some b)
    else Except.ok (r.1, r.2.1, some b)

/-- Processing of one `FormularyRecord` (rxparse.py lines 321-378):
materialize the per-dose table, then run every per-dose entry of its
snapshot against the price table. -/
def recordStep (oracle : String → String → Bool)
    (pricetable : List (String × InvRec))
    (acc : List FormularyRecord × MatchStats × Option Bool)
    (record : FormularyRecord) :
    Except String (List FormularyRecord × MatchStats × Option Bool) := do
  let r := set_PRICETABLE record
  let res ← r.PRICETABLE.foldlM (fun a kv => doseEntryStep oracle pricetable a kv)
    (r.PRICETABLE, acc.2.1, acc.2.2)
  Except.ok (acc.1 ++ [{ r with PRICETABLE := res.1 }], res.2.1, res.2.2)

/-- `formulary_update` (rxparse.py line 308).  The Python function returns
`(mcount, pricechanges, formulary, smatchcount)`; here the updated records
and the full `MatchStats` (which carries those counters) are returned. -/
def formulary_update (oracle : String → String → Bool)
    (formulary : List FormularyRecord) (pricetable : List (String × InvRec)) :
    Except String (List FormularyRecord × MatchStats) := do
  let init : List FormularyRecord × MatchStats × Option Bool := ([], ⟨0, 0, 0, [], []⟩, none)
  let res ← formulary.foldlM (fun a r => recordStep oracle pricetable a r) init
  Except.ok (res.1, res.2.1)

/-! ## Association-list lemmas -/

/-! ## Association-list lemmas -/

theorem keysOf_nil {α : Type} : keysOf ([] : List (String × α)) = [] := rfl

theorem keysOf_cons {α : Type} (p : String × α) (t : List (String × α)) :
    keysOf (p :: t) = p.1 :: keysOf t := rfl

theorem lookupAL_cons {α : Type} (p : String × α) (t : List (String × α)) (k : String) :
    lookupAL (p :: t) k = if p.1 = k then some p.2 else lookupAL t k := by
  cases p; rfl

theorem insertAL_cons {α : Type} (p : String × α) (t : List (String × α)) (k : String) (v : α) :
    insertAL (p :: t) k v = if p.1 = k then (k, v) :: t else p :: insertAL t k v := by
  cases p; rfl

theorem lookupAL_insertAL_self {α : Type} (t : List (String × α)) (k : String) (v : α) :
    lookupAL (insertAL t k v) k = some v := by
  induction t with
  | nil => simp [insertAL, lookupAL]
  | cons p rest ih =>
    rw [insertAL_cons]
    by_cases h : p.1 = k
    · rw [if_pos h, lookupAL_cons]
      simp
    · rw [if_neg h, lookupAL_cons, if_neg h]
      exact ih

theorem lookupAL_insertAL_ne {α : Type} (t : List (String × α)) (k k' : String) (v : α)
    (h : k' ≠ k) : lookupAL (insertAL t k v) k' = lookupAL t k' := by
  induction t with
  | nil =>
    show lookupAL [(k, v)] k' = lookupAL [] k'
    rw [lookupAL_cons, if_neg (Ne.symm h)]
  | cons p rest ih =>
    rw [insertAL_cons]
    by_cases hp : p.1 = k
    · rw [if_pos hp, lookupAL_cons, lookupAL_cons,
        if_neg (Ne.symm h), if_neg (fun hh => (Ne.symm h) (hp.symm.trans hh))]
    · rw [if_neg hp, lookupAL_cons, lookupAL_cons]
      by_cases hp' : p.1 = k'
      · rw [if_pos hp', if_pos hp']
      · rw [if_neg hp', if_neg hp']
        exact ih

theorem keysOf_insertAL_mem {α : Type} (t : List (String × α)) (k : String) (v : α)
    (h : k ∈ keysOf t) : keysOf (insertAL t k v) = keysOf t := by
  induction t with
  | nil => rw [keysOf_nil] at h; cases h
  | cons p rest ih =>
    rw [insertAL_cons]
    by_cases hp : p.1 = k
    · rw [if_pos hp, keysOf_cons, keysOf_cons, hp]
    · rw [keysOf_cons] at h
      rcases List.mem_cons.mp h with h | h
      · exact absurd h.symm hp
      · rw [if_neg hp, keysOf_cons, keysOf_cons, ih h]

theorem keysOf_insertAL_not_mem {α : Type} (t : List (String × α)) (k : String) (v : α)
    (h : k ∉ keysOf t) : keysOf (insertAL t k v) = keysOf t ++ [k] := by
  induction t with
  | nil => simp [insertAL, keysOf]
  | cons p rest ih =>
    have hp : p.1 ≠ k := by
      intro hh
      exact h (by rw [keysOf_cons, hh]; exact List.mem_cons_self _ _)
    have hrest : k ∉ keysOf rest := by
      intro hh
      exact h (by rw [keysOf_cons]; exact List.mem_cons_of_mem _ hh)
    rw [insertAL_cons, if_neg hp, keysOf_cons, ih hrest, keysOf_cons, List.cons_append]

theorem lookupAL_eq_none_iff {α : Type} (t : List (String × α)) (k : String) :
    lookupAL t k = none ↔ k ∉ keysOf t := by
  induction t with
  | nil => simp [lookupAL, keysOf]
  | cons p rest ih =>
    rw [lookupAL_cons, keysOf_cons]
    by_cases hp : p.1 = k
    · rw [if_pos hp, hp]
      simp
    · rw [if_neg hp, ih]
      simp [List.mem_cons, Ne.symm hp]

theorem keysOf_nodup_insertAL {α : Type} (t : List (String × α)) (k : String) (v : α)
    (h : (keysOf t).Nodup) : (keysOf (insertAL t k v)).Nodup := by
  by_cases hk : k ∈ keysOf t
  · rw [keysOf_insertAL_mem t k v hk]; exact h
  · rw [keysOf_insertAL_not_mem t k v hk, List.nodup_append]
    refine ⟨h, List.nodup_singleton _, ?_⟩
    intro a ha hb
    rw [List.mem_singleton] at hb
    subst hb
    exact hk ha

theorem containsIffMem {w : List Char} {l : List (List Char)} :
    l.contains w = true ↔ w ∈ l := List.elem_iff

/-! ## Claim C2: the soft match (`match_string`) -/

/-- C2 (corrected), counterexample: for equal word sets — every word of the
formulary name appears among the invoice words — the soft match nevertheless
fails, because Python's `<` on the two word sets is a *strict* subset test. -/
theorem claim2_counterexample :
    (∀ w ∈ pyWords "aspirin", w ∈ pyWords "aspirin") ∧
      match_string "aspirin" "aspirin" = false :=
  ⟨fun _ hw => hw, by decide⟩

/-- C2 (amended): the soft match holds iff the formulary name's word set is a
*strict* subset of the invoice string's word set: every word of the name
appears among the invoice words AND some invoice word is not a word of the
name.  In particular it fails when the two word sets are equal. -/
theorem claim2_amended (s p : String) :
    match_string s p = true ↔
      ((∀ w ∈ pyWords s, w ∈ pyWords p) ∧ ∃ w ∈ pyWords p, w ∉ pyWords s) := by
  unfold match_string
  simp only [Bool.and_eq_true, List.all_eq_true, List.any_eq_true, Bool.not_eq_true']
  constructor
  · rintro ⟨h1, w, hw, hww⟩
    refine ⟨fun u hu => containsIffMem.mp (h1 u hu), w, hw, fun hmem => ?_⟩
    rw [containsIffMem.mpr hmem] at hww
    cases hww
  · rintro ⟨h1, w, hw, hww⟩
    refine ⟨fun u hu => containsIffMem.mpr (h1 u hu), w, hw, ?_⟩
    cases hc : (pyWords s).contains w
    · rfl
    · exact absurd (containsIffMem.mp hc) hww

/-! ## Claim C3: name extraction -/

/-- C3 (corrected), counterexample: on a blacklisted raw name the code only
strips the `~` marker and keeps the annotations, so
`"~Acetaminophen (Tylenol) - oral"` does not yield name `"Acetaminophen"`. -/
theorem claim3_counterexample :
    set_NAMEandBLACKLISTED "~Acetaminophen (Tylenol) - oral"
      = some ("Acetaminophen (Tylenol) - oral", true) ∧
    ("Acetaminophen (Tylenol) - oral" : String) ≠ "Acetaminophen" :=
  ⟨by decide, by decide⟩

/-- C3 (amended): the blacklist branch strips only the leading `~` marker and
keeps annotations (blacklisted = true); the annotation-stripping pattern
applies only to non-blacklisted names, so `"Ibuprofen (Advil)"` yields
`"Ibuprofen"` with blacklisted = false. -/
theorem claim3_amended :
    set_NAMEandBLACKLISTED "~Acetaminophen (Tylenol) - oral"
      = some ("Acetaminophen (Tylenol) - oral", true) ∧
    set_NAMEandBLACKLISTED "Ibuprofen (Advil)" = some ("Ibuprofen", false) :=
  ⟨by decide, by decide⟩

/-! ## Claim C9: dose/cost extraction -/

/-- C9 (confirmed): `_DOSECOSTPATT_.findall` on
`"$0.50 (200mg), $1.00-$1.50 (400mg)"` yields exactly the two (cost, dose)
pairs in order, and an input with no match yields the empty list. -/
theorem claim9_dosecost :
    get_DOSECOST "$0.50 (200mg), $1.00-$1.50 (400mg)"
      = [("$0.50", "200mg"), ("$1.00-$1.50", "400mg")] ∧
    get_DOSECOST "no doses yet" = [] :=
  ⟨by decide, by decide⟩

/-! ## Claim C4: the price table builder -/

theorem store_foldl_lookup (invoice : List CsvRow) :
    ∀ (t : List (String × InvRec)) (k : String),
      lookupAL (invoice.foldl storeStep t) k
        = (invoice.filter (fun row => row.namedose == k)).foldl fmStep (lookupAL t k) := by
  induction invoice with
  | nil => intro t k; rfl
  | cons i rest ih =>
    intro t k
    by_cases hk : i.namedose = k
    · subst hk
      have hstep : lookupAL (storeStep t i) i.namedose = fmStep (lookupAL t i.namedose) i := by
        cases hcur : lookupAL t i.namedose with
        | none =>
          simp only [storeStep, fmStep, rowEntry, hcur]
          rw [lookupAL_insertAL_self]
        | some cur =>
          simp only [storeStep, fmStep, rowEntry, hcur]
          by_cases hd : dateGt (some i.reqdate) cur.REQDATE
          · rw [if_pos hd, if_pos hd, lookupAL_insertAL_self]
          · rw [if_neg hd, if_neg hd, hcur]
      rw [List.foldl_cons, ih (storeStep t i) i.namedose, hstep]
      simp [List.filter_cons]
    · have hstep : lookupAL (storeStep t i) k = lookupAL t k := by
        cases hcur : lookupAL t i.namedose with
        | none =>
          simp only [storeStep, rowEntry, hcur]
          exact lookupAL_insertAL_ne t i.namedose k _ (Ne.symm hk)
        | some cur =>
          simp only [storeStep, rowEntry, hcur]
          by_cases hd : dateGt (some i.reqdate) cur.REQDATE
          · rw [if_pos hd]
            exact lookupAL_insertAL_ne t i.namedose k _ (Ne.symm hk)
          · rw [if_neg hd]
      rw [List.foldl_cons, ih (storeStep t i) k, hstep]
      simp [List.filter_cons, hk]

theorem fm_foldl_eq (rest : List CsvRow) :
    ∀ c : CsvRow, rest.foldl fmStep (some (rowEntry c)) = some (rowEntry (firstMaxAux c rest)) := by
  induction rest with
  | nil => intro c; rfl
  | cons x rest ih =>
    intro c
    have hstep : fmStep (some (rowEntry c)) x
        = if c.reqdate < x.reqdate then some (rowEntry x) else some (rowEntry c) := by
      simp [fmStep, rowEntry, dateGt]
    have hx : firstMaxAux c (x :: rest)
        = if c.reqdate < x.reqdate then firstMaxAux x rest else firstMaxAux c rest := rfl
    rw [List.foldl_cons, hstep, hx]
    by_cases hd : c.reqdate < x.reqdate
    · rw [if_pos hd, if_pos hd]; exact ih x
    · rw [if_neg hd, if_neg hd]; exact ih c

theorem fm_none_eq (rows : List CsvRow) :
    rows.foldl fmStep none = (firstMax rows).map rowEntry := by
  cases rows with
  | nil => rfl
  | cons r rest =>
    have h1 : fmStep none r = some (rowEntry r) := rfl
    rw [List.foldl_cons, h1, fm_foldl_eq rest r]
    rfl

theorem store_keys_nodup (invoice : List CsvRow) :
    ∀ t : List (String × InvRec), (keysOf t).Nodup →
      (keysOf (invoice.foldl storeStep t)).Nodup := by
  induction invoice with
  | nil => intro t h; exact h
  | cons i rest ih =>
    intro t h
    rw [List.foldl_cons]
    apply ih
    cases hcur : lookupAL t i.namedose with
    | none =>
      simp only [storeStep, rowEntry, hcur]
      exact keysOf_nodup_insertAL _ _ _ h
    | some cur =>
      simp only [storeStep, rowEntry, hcur]
      by_cases hd : dateGt (some i.reqdate) cur.REQDATE
      · rw [if_pos hd]; exact keysOf_nodup_insertAL _ _ _ h
      · rw [if_neg hd]; exact h

theorem firstMaxAux_decomp (l : List CsvRow) :
    ∀ c : CsvRow,
      (firstMaxAux c l = c ∧ ∀ x ∈ l, x.reqdate ≤ c.reqdate) ∨
      (∃ l₁ l₂, l = l₁ ++ firstMaxAux c l :: l₂
        ∧ c.reqdate < (firstMaxAux c l).reqdate
        ∧ (∀ x ∈ l₁, x.reqdate < (firstMaxAux c l).reqdate)
        ∧ (∀ x ∈ l₂, x.reqdate ≤ (firstMaxAux c l).reqdate)) := by
  induction l with
  | nil =>
    intro c
    exact Or.inl ⟨rfl, by intro x hx; cases hx⟩
  | cons x rest ih =>
    intro c
    have hx : firstMaxAux c (x :: rest)
        = if c.reqdate < x.reqdate then firstMaxAux x rest else firstMaxAux c rest := rfl
    by_cases hd : c.reqdate < x.reqdate
    · rw [hx, if_pos hd]
      rcases ih x with ⟨heq, hall⟩ | ⟨l₁, l₂, heq, hlt, hall₁, hall₂⟩
      · rw [heq]
        refine Or.inr ⟨[], rest, by simp, hd, (by intro y hy; cases hy), hall⟩
      · refine Or.inr ⟨x :: l₁, l₂,
          (by rw [List.cons_append]; exact congrArg (List.cons x) heq),
          lt_trans hd hlt, ?_, hall₂⟩
        intro y hy
        rcases List.mem_cons.mp hy with rfl | hy
        · exact hlt
        · exact hall₁ y hy
    · rw [hx, if_neg hd]
      have hxc : x.reqdate ≤ c.reqdate := Nat.le_of_not_lt hd
      rcases ih c with ⟨heq, hall⟩ | ⟨l₁, l₂, heq, hlt, hall₁, hall₂⟩
      · rw [heq]
        refine Or.inl ⟨rfl, ?_⟩
        intro y hy
        rcases List.mem_cons.mp hy with rfl | hy
        · exact hxc
        · exact hall y hy
      · refine Or.inr ⟨x :: l₁, l₂,
          (by rw [List.cons_append]; exact congrArg (List.cons x) heq), hlt, ?_, hall₂⟩
        intro y hy
        rcases List.mem_cons.mp hy with rfl | hy
        · exact lt_of_le_of_lt hxc hlt
        · exact hall₁ y hy

/-- C4 (confirmed): the price table built from an invoice has (i) for every
key exactly the entry of the first-encountered maximum-date row among the
rows with that key (`none` iff no such row exists), (ii) no duplicate keys,
and (iii) the kept row splits its key's rows so that every earlier row is
strictly older and no later row is newer (ties keep the first encountered). -/
theorem claim4_pricetable (invoice : List CsvRow) :
    (∀ k, lookupAL (store_pricetable invoice) k
        = (firstMax (invoice.filter (fun row => row.namedose == k))).map rowEntry)
    ∧ (keysOf (store_pricetable invoice)).Nodup
    ∧ (∀ (k : String) (r : CsvRow),
        firstMax (invoice.filter (fun row => row.namedose == k)) = some r →
        ∃ l₁ l₂, invoice.filter (fun row => row.namedose == k) = l₁ ++ r :: l₂
          ∧ (∀ x ∈ l₁, x.reqdate < r.reqdate) ∧ (∀ x ∈ l₂, x.reqdate ≤ r.reqdate)) := by
  refine ⟨?_, ?_, ?_⟩
  · intro k
    have h1 := store_foldl_lookup invoice [] k
    have h2 := fm_none_eq (invoice.filter (fun row => row.namedose == k))
    unfold store_pricetable
    rw [h1]
    exact h2
  · exact store_keys_nodup invoice [] List.nodup_nil
  · intro k r hr
    cases hf : invoice.filter (fun row => row.namedose == k) with
    | nil => rw [hf] at hr; exact absurd hr (by simp [firstMax])
    | cons c rest =>
      rw [hf] at hr
      have hr' : firstMaxAux c rest = r := by
        simpa [firstMax] using hr
      rcases firstMaxAux_decomp rest c with ⟨heq, hall⟩ | ⟨l₁, l₂, heq, hlt, hall₁, hall₂⟩
      · have hcr : c = r := by rw [← hr', heq]
        subst hcr
        exact ⟨[], rest, by simp, (by intro x hx; cases hx), hall⟩
      · rw [hr'] at heq hlt hall₁ hall₂
        refine ⟨c :: l₁, l₂,
          (by rw [List.cons_append]; exact congrArg (List.cons c) heq), ?_, hall₂⟩
        intro y hy
        rcases List.mem_cons.mp hy with rfl | hy
        · exact hlt
        · exact hall₁ y hy

/-- Witness for C4: a key with a date tie — the first-encountered
maximum-date row (item 22222) is kept, and the decomposition is realized. -/
theorem claim4_witness :
    lookupAL (store_pricetable
        [⟨"11111", "k", "c", 5, "$1"⟩, ⟨"22222", "k", "c", 7, "$2"⟩,
         ⟨"33333", "k", "c", 7, "$3"⟩]) "k"
      = some (rowEntry ⟨"22222", "k", "c", 7, "$2"⟩) ∧
    (∃ l₁ l₂,
      [(⟨"11111", "k", "c", 5, "$1"⟩ : CsvRow), ⟨"22222", "k", "c", 7, "$2"⟩,
          ⟨"33333", "k", "c", 7, "$3"⟩].filter (fun row => row.namedose == "k")
        = l₁ ++ (⟨"22222", "k", "c", 7, "$2"⟩ : CsvRow) :: l₂
        ∧ (∀ x ∈ l₁, x.reqdate < 7) ∧ (∀ x ∈ l₂, x.reqdate ≤ 7)) := by
  have h := claim4_pricetable
    [⟨"11111", "k", "c", 5, "$1"⟩, ⟨"22222", "k", "c", 7, "$2"⟩, ⟨"33333", "k", "c", 7, "$3"⟩]
  exact ⟨by rw [h.1 "k"]; decide, h.2.2 "k" ⟨"22222", "k", "c", 7, "$2"⟩ (by decide)⟩

/-! ## Claim C6: the containment filter is a regex search, not a literal
substring check -/

theorem matchItems_all_lit (pat : List Char) (hpat : ∀ c ∈ pat, c ≠ '.') :
    ∀ (prev : Option Char) (s : List Char),
      matchItems (compilePat pat) prev s = isPrefixLit pat s := by
  induction pat with
  | nil => intro prev s; rfl
  | cons c cs ih =>
    intro prev s
    have hc : c ≠ '.' := hpat c (List.mem_cons_self c cs)
    have hcs : ∀ x ∈ cs, x ≠ '.' := fun x hx => hpat x (List.mem_cons_of_mem c hx)
    have hcomp : compilePat (c :: cs) = RItem.lit c :: compilePat cs := by
      simp [compilePat, hc]
    rw [hcomp]
    cases s with
    | nil => rfl
    | cons x xs =>
      show ((x == c) && matchItems (compilePat cs) (some x) xs)
        = ((x == c) && isPrefixLit cs xs)
      rw [ih hcs (some x) xs]

theorem reSearch_lit_eq (pat : List Char) (hpat : ∀ c ∈ pat, c ≠ '.') :
    ∀ (s : List Char) (prev : Option Char),
      searchFrom (compilePat pat) prev s = containsSub pat s := by
  intro s
  induction s with
  | nil => intro prev; exact matchItems_all_lit pat hpat prev []
  | cons x xs ih =>
    intro prev
    show (matchItems (compilePat pat) prev (x :: xs) || searchFrom (compilePat pat) (some x) xs)
        = (isPrefixLit pat (x :: xs) || containsSub pat xs)
    rw [matchItems_all_lit pat hpat prev (x :: xs), ih (some x)]

/-- C6 (amended): (i) a price-table entry failing the code's containment
check leaves the state untouched — no match, no price change, no prompt; and
(ii) the code's containment check is `re.search` with the formulary name used
as the *pattern*, which coincides with literal case-insensitive substring
containment exactly for names free of regex metacharacters (in the embedded
fragment: free of `.`), but not in general. -/
theorem claim6_amended (oracle : String → String → Bool) (dname ddose dcost k : String)
    (v : InvRec) (ptab : List (String × InvRec)) (st : MatchStats) (nd : String) (ir : InvRec)
    (hfail : reSearch (compilePat dname.data) (lowerStr nd).data = false) :
    innerStep oracle dname ddose dcost k v (ptab, st) (nd, ir) = (ptab, st, false)
    ∧ (∀ (pat s : List Char), (∀ c ∈ pat, c ≠ '.') →
        reSearch (compilePat pat) s = containsSub pat s) := by
  constructor
  · simp [innerStep, hfail]
  · exact fun pat s hp => reSearch_lit_eq pat hp s none

/-- Witness for C6: a name absent from the invoice string changes nothing,
and for the metacharacter-free name "aspirin" the containment check equals
literal substring search. -/
theorem claim6_witness :
    innerStep (fun _ _ => false) "zzz" "5mg" "$1" "zzz 5mg"
        (doseEntryRec "zzz" "CAT" "zzz 5mg" "5mg" "$1") ([], ⟨0, 0, 0, [], []⟩)
        ("abc 5mg", ⟨"abc 5mg", "NaN", "NaN", "$2", "CAT", "99999", some 1⟩)
      = ([], ⟨0, 0, 0, [], []⟩, false)
    ∧ reSearch (compilePat "aspirin".data) "xx aspirin 81mg".data
        = containsSub "aspirin".data "xx aspirin 81mg".data := by
  have h := claim6_amended (fun _ _ => false) "zzz" "5mg" "$1" "zzz 5mg"
    (doseEntryRec "zzz" "CAT" "zzz 5mg" "5mg" "$1") [] ⟨0, 0, 0, [], []⟩
    "abc 5mg" ⟨"abc 5mg", "NaN", "NaN", "$2", "CAT", "99999", some 1⟩ (by decide)
  exact ⟨h.1, h.2 "aspirin".data "xx aspirin 81mg".data (by decide)⟩

/-- C6 (corrected), counterexample: the formulary name "a.c" is NOT a literal
substring of the invoice key "abc 5mg", yet the code's `re.search` treats `.`
as a metacharacter, the entry passes the containment filter, and an operator
prompt is issued (and the entry is even reported unmatched afterwards). -/
theorem claim6_counterexample :
    containsSub (lowerStr "a.c").data (lowerStr "abc 5mg").data = false ∧
    formulary_update (fun _ _ => false)
        [⟨"a.c", false, [("$1", "5mg")], [], "oral", "CAT"⟩]
        [("abc 5mg", ⟨"abc 5mg", "NaN", "NaN", "$2", "CAT", "99999", some 100⟩)]
      = Except.ok
          ([⟨"a.c", false, [("$1", "5mg")],
             [("a.c 5mg", ⟨"a.c 5mg", "a.c", "5mg", "$1", "CAT", "NaN", none⟩)], "oral", "CAT"⟩],
           ⟨0, 0, 0, [("a.c 5mg", "abc 5mg")], ["a.c 5mg"]⟩) :=
  ⟨by decide, rfl⟩

/-! ## Claim C1: confirmed matches and the price overwrite -/

/-- C1 (corrected), counterexample: on a confirmed match with differing
costs, the stored cost is the *lowercased* invoice cost, not the invoice
record's cost verbatim: the invoice cost "FREE" is stored as "free". -/
theorem claim1_counterexample :
    formulary_update (fun _ _ => false)
        [⟨"aspirin", false, [("$0.10", "81mg")], [], "oral", "ANALGESICS"⟩]
        [("aspirin 81mg tablet",
          ⟨"aspirin 81mg tablet", "NaN", "NaN", "FREE", "CAT", "54321", some 100⟩)]
      = Except.ok
          ([⟨"aspirin", false, [("$0.10", "81mg")],
             [("aspirin 81mg",
               ⟨"aspirin 81mg", "aspirin", "81mg", "free", "ANALGESICS", "54321", none⟩)],
             "oral", "ANALGESICS"⟩],
           ⟨1, 1, 1, [], []⟩) ∧
    ("free" : String) ≠ "FREE" :=
  ⟨rfl, by decide⟩

/-- C1 (amended): for an entry passing the containment filter, if the soft
match holds and the dose occurs at a word boundary, the match counter is
incremented; if additionally the costs differ case-insensitively, the entry's
COST is overwritten with the *lowercased* invoice cost, ITEMNUM with the
invoice item number, and the price-change counter is incremented by 1; if the
costs agree case-insensitively the entry is left unchanged.  The aspirin /
"aspirin 81mg tablet" scenario updates the cost to "$0.15", the item number
to "54321", and records exactly one price change. -/
theorem claim1_amended (oracle : String → String → Bool) (dname ddose dcost k : String)
    (v : InvRec) (ptab : List (String × InvRec)) (st : MatchStats) (nd : String) (ir : InvRec)
    (hcontain : reSearch (compilePat dname.data) (lowerStr nd).data = true)
    (hsoft : match_string dname (lowerStr nd) = true)
    (hdose : reSearch (RItem.wordB :: compilePat ddose.data) (lowerStr nd).data = true) :
    (price_disc dcost (lowerStr ir.COST) = true →
      innerStep oracle dname ddose dcost k v (ptab, st) (nd, ir)
        = (insertAL ptab k (replaceEntry v (lowerStr ir.COST) ir.ITEMNUM),
           { st with smatchcount := st.smatchcount + 1, mcount := st.mcount + 1,
                     pricechanges := st.pricechanges + 1 }, true))
    ∧ (price_disc dcost (lowerStr ir.COST) = false →
      innerStep oracle dname ddose dcost k v (ptab, st) (nd, ir)
        = (ptab, { st with smatchcount := st.smatchcount + 1, mcount := st.mcount + 1 }, true))
    ∧ formulary_update (fun _ _ => false)
        [⟨"aspirin", false, [("$0.10", "81mg")], [], "oral", "ANALGESICS"⟩]
        [("aspirin 81mg tablet",
          ⟨"aspirin 81mg tablet", "NaN", "NaN", "$0.15", "CAT", "54321", some 100⟩)]
      = Except.ok
          ([⟨"aspirin", false, [("$0.10", "81mg")],
             [("aspirin 81mg",
               ⟨"aspirin 81mg", "aspirin", "81mg", "$0.15", "ANALGESICS", "54321", none⟩)],
             "oral", "ANALGESICS"⟩],
           ⟨1, 1, 1, [], []⟩) := by
  refine ⟨?_, ?_, rfl⟩
  · intro hp
    simp [innerStep, hcontain, hsoft, hdose, hp]
  · intro hp
    simp [innerStep, hcontain, hsoft, hdose, hp]

/-- Witness for C1: the aspirin entry against "aspirin 81mg tablet" with
invoice cost "$0.15" and item number "54321". -/
theorem claim1_witness :
    innerStep (fun _ _ => false) "aspirin" "81mg" "$0.10" "aspirin 81mg"
        (doseEntryRec "aspirin" "ANALGESICS" "aspirin 81mg" "81mg" "$0.10")
        ([("aspirin 81mg", doseEntryRec "aspirin" "ANALGESICS" "aspirin 81mg" "81mg" "$0.10")],
         ⟨0, 0, 0, [], []⟩)
        ("aspirin 81mg tablet",
         ⟨"aspirin 81mg tablet", "NaN", "NaN", "$0.15", "CAT", "54321", some 100⟩)
      = ([("aspirin 81mg",
           ⟨"aspirin 81mg", "aspirin", "81mg", "$0.15", "ANALGESICS", "54321", none⟩)],
         ⟨1, 1, 1, [], []⟩, true) := by
  have h := claim1_amended (fun _ _ => false) "aspirin" "81mg" "$0.10" "aspirin 81mg"
    (doseEntryRec "aspirin" "ANALGESICS" "aspirin 81mg" "81mg" "$0.10")
    [("aspirin 81mg", doseEntryRec "aspirin" "ANALGESICS" "aspirin 81mg" "81mg" "$0.10")]
    ⟨0, 0, 0, [], []⟩ "aspirin 81mg tablet"
    ⟨"aspirin 81mg tablet", "NaN", "NaN", "$0.15", "CAT", "54321", some 100⟩
    (by decide) (by decide) (by decide)
  have h1 := h.1 (by decide)
  rw [h1]
  decide

/-! ## Claim C5: the unmatched report only reflects the last price-table
entry (`has_match` is reset inside the loop) -/

/-- C5 (code bug): a formulary entry that matches the FIRST price-table entry
(the match counter ends at 1) but not the second is nevertheless reported as
unmatched, because `has_match = False` is executed at the top of every
iteration of the loop over the price table, contradicting the adjacent
comment "check if formulary medication as any matches in pricetable". -/
theorem claim5_bug :
    formulary_update (fun _ _ => false)
        [⟨"aspirin", false, [("$0.10", "81mg")], [], "oral", "ANALGESICS"⟩]
        [("aspirin 81mg tablet",
          ⟨"aspirin 81mg tablet", "NaN", "NaN", "$0.10", "CAT", "11111", some 100⟩),
         ("zzz 9mg", ⟨"zzz 9mg", "NaN", "NaN", "$9.99", "CAT", "22222", some 100⟩)]
      = Except.ok
          ([⟨"aspirin", false, [("$0.10", "81mg")],
             [("aspirin 81mg",
               ⟨"aspirin 81mg", "aspirin", "81mg", "$0.10", "ANALGESICS", "NaN", none⟩)],
             "oral", "ANALGESICS"⟩],
           ⟨1, 1, 0, [], ["aspirin 81mg"]⟩) := rfl

/-! ## Claim C10: totality requires a non-empty price table -/

theorem insertAL_ne_nil {α : Type} (t : List (String × α)) (k : String) (v : α) :
    insertAL t k v ≠ [] := by
  cases t with
  | nil => simp [insertAL]
  | cons p rest =>
    rw [insertAL_cons]
    by_cases h : p.1 = k
    · rw [if_pos h]; simp
    · rw [if_neg h]; simp

theorem buildPT_eq_nil (name category : String) :
    ∀ (dc : List (String × String)) (t : List (String × InvRec)),
      buildPT name category dc t = [] → dc = [] ∧ t = [] := by
  intro dc
  induction dc with
  | nil => intro t h; exact ⟨rfl, h⟩
  | cons d rest ih =>
    intro t h
    rw [buildPT, List.foldl_cons] at h
    have h2 := ih (doseInsert name category t d) h
    exact absurd h2.2 (insertAL_ne_nil _ _ _)

theorem entryLoop_snd_some (oracle : String → String → Bool)
    (dname ddose dcost k : String) (v : InvRec) :
    ∀ (pt : List (String × InvRec)) (start : List (String × InvRec) × MatchStats × Option Bool),
      pt ≠ [] →
      ∃ b, (entryLoop oracle dname ddose dcost k v pt start).2.2 = some b := by
  intro pt
  induction pt with
  | nil => intro start h; exact absurd rfl h
  | cons x rest ih =>
    intro start _
    cases rest with
    | nil => exact ⟨(innerStep oracle dname ddose dcost k v (start.1, start.2.1) x).2.2, rfl⟩
    | cons y ys =>
      have heq : entryLoop oracle dname ddose dcost k v (x :: y :: ys) start
          = entryLoop oracle dname ddose dcost k v (y :: ys)
              ((innerStep oracle dname ddose dcost k v (start.1, start.2.1) x).1,
               (innerStep oracle dname ddose dcost k v (start.1, start.2.1) x).2.1,
               some (innerStep oracle dname ddose dcost k v (start.1, start.2.1) x).2.2) := rfl
      rw [heq]
      exact ih _ (by simp)

theorem doseEntryStep_ok (oracle : String → String → Bool)
    (pt : List (String × InvRec)) (hpt : pt ≠ [])
    (acc : List (String × InvRec) × MatchStats × Option Bool) (kv : String × InvRec) :
    ∃ out, doseEntryStep oracle pt acc kv = Except.ok out := by
  obtain ⟨b, hb⟩ := entryLoop_snd_some oracle (lowerStr kv.2.NAME) (lowerStr kv.2.DOSE)
    (lowerStr kv.2.COST) kv.1 kv.2 pt acc hpt
  simp only [doseEntryStep]
  rw [hb]
  cases b
  · exact ⟨_, rfl⟩
  · exact ⟨_, rfl⟩

theorem foldlM_dose_ok (oracle : String → String → Bool)
    (pt : List (String × InvRec)) (hpt : pt ≠ []) :
    ∀ (kvs : List (String × InvRec)) (acc : List (String × InvRec) × MatchStats × Option Bool),
      ∃ out, kvs.foldlM (fun a kv => doseEntryStep oracle pt a kv) acc = Except.ok out := by
  intro kvs
  induction kvs with
  | nil => intro acc; exact ⟨acc, rfl⟩
  | cons kv rest ih =>
    intro acc
    obtain ⟨out1, h1⟩ := doseEntryStep_ok oracle pt hpt acc kv
    obtain ⟨out2, h2⟩ := ih out1
    refine ⟨out2, ?_⟩
    rw [List.foldlM_cons, h1]
    exact h2

theorem recordStep_ok (oracle : String → String → Bool)
    (pt : List (String × InvRec)) (hpt : pt ≠ [])
    (acc : List FormularyRecord × MatchStats × Option Bool) (record : FormularyRecord) :
    ∃ out, recordStep oracle pt acc record = Except.ok out := by
  obtain ⟨out, h⟩ := foldlM_dose_ok oracle pt hpt (set_PRICETABLE record).PRICETABLE
    ((set_PRICETABLE record).PRICETABLE, acc.2.1, acc.2.2)
  simp only [recordStep]
  rw [h]
  exact ⟨_, rfl⟩

theorem foldlM_records_ok (oracle : String → String → Bool)
    (pt : List (String × InvRec)) (hpt : pt ≠ []) :
    ∀ (fs : List FormularyRecord) (acc : List FormularyRecord × MatchStats × Option Bool),
      ∃ out, fs.foldlM (fun a r => recordStep oracle pt a r) acc = Except.ok out := by
  intro fs
  induction fs with
  | nil => intro acc; exact ⟨acc, rfl⟩
  | cons r rest ih =>
    intro acc
    obtain ⟨out1, h1⟩ := recordStep_ok oracle pt hpt acc r
    obtain ⟨out2, h2⟩ := ih out1
    refine ⟨out2, ?_⟩
    rw [List.foldlM_cons, h1]
    exact h2

theorem foldlM_records_error (oracle : String → String → Bool) :
    ∀ (fs : List FormularyRecord) (L : List FormularyRecord) (st : MatchStats),
      (∃ r ∈ fs, r.DOSECOST ≠ []) →
      ∃ msg, fs.foldlM (fun a r => recordStep oracle [] a r) (L, st, (none : Option Bool))
        = Except.error msg := by
  intro fs
  induction fs with
  | nil =>
    intro L st h
    rcases h with ⟨r, hmem, _⟩
    cases hmem
  | cons r rest ih =>
    intro L st hex
    cases hpt : (set_PRICETABLE r).PRICETABLE with
    | cons kv kvs =>
      refine ⟨"UnboundLocalError: local variable has_match referenced before assignment", ?_⟩
      have hrec : recordStep oracle [] (L, st, (none : Option Bool)) r
          = Except.error
              "UnboundLocalError: local variable has_match referenced before assignment" := by
        simp only [recordStep, hpt]
        rfl
      rw [List.foldlM_cons, hrec]
      rfl
    | nil =>
      have hdc : r.DOSECOST = [] := (buildPT_eq_nil r.NAME r.CATEGORY r.DOSECOST r.PRICETABLE hpt).1
      have hrec : recordStep oracle [] (L, st, (none : Option Bool)) r
          = Except.ok (L ++ [{ set_PRICETABLE r with PRICETABLE := [] }], st, none) := by
        simp only [recordStep, hpt]
        rfl
      have hex' : ∃ rr ∈ rest, rr.DOSECOST ≠ [] := by
        rcases hex with ⟨rr, hmem, hne⟩
        rcases List.mem_cons.mp hmem with rfl | hmem'
        · exact absurd hdc hne
        · exact ⟨rr, hmem', hne⟩
      obtain ⟨msg, hm⟩ := ih (L ++ [{ set_PRICETABLE r with PRICETABLE := [] }]) st hex'
      refine ⟨msg, ?_⟩
      rw [List.foldlM_cons, hrec]
      exact hm

/-- C10 (confirmed): with an empty price table and at least one per-dose
entry, `formulary_update` reads `has_match` before any assignment (the
variable is only assigned inside the loop over price-table items) and fails
with an unbound-variable error; with a non-empty price table the function is
total and returns its counters. -/
theorem claim10_unbound (oracle : String → String → Bool)
    (formulary : List FormularyRecord) (pricetable : List (String × InvRec)) :
    ((∃ r ∈ formulary, r.DOSECOST ≠ []) →
      ∃ msg, formulary_update oracle formulary [] = Except.error msg)
    ∧ (pricetable ≠ [] →
      ∃ res, formulary_update oracle formulary pricetable = Except.ok res) := by
  constructor
  · intro hex
    obtain ⟨msg, hm⟩ := foldlM_records_error oracle formulary [] ⟨0, 0, 0, [], []⟩ hex
    refine ⟨msg, ?_⟩
    simp only [formulary_update]
    rw [hm]
    rfl
  · intro hpt
    obtain ⟨out, hout⟩ := foldlM_records_ok oracle pricetable hpt formulary
      ([], ⟨0, 0, 0, [], []⟩, none)
    refine ⟨(out.1, out.2.1), ?_⟩
    simp only [formulary_update]
    rw [hout]
    rfl

/-- Witness for C10: one formulary record with one dose/cost pair errors on
an empty price table and succeeds on a one-entry price table. -/
theorem claim10_witness :
    (∃ msg, formulary_update (fun _ _ => false)
        [⟨"aspirin", false, [("$0.10", "81mg")], [], "oral", "ANALGESICS"⟩] []
      = Except.error msg)
    ∧ (∃ res, formulary_update (fun _ _ => false)
        [⟨"aspirin", false, [("$0.10", "81mg")], [], "oral", "ANALGESICS"⟩]
        [("x", ⟨"x", "NaN", "NaN", "$1", "C", "11111", some 1⟩)]
      = Except.ok res) := by
  have h := claim10_unbound (fun _ _ => false)
    [⟨"aspirin", false, [("$0.10", "81mg")], [], "oral", "ANALGESICS"⟩]
    [("x", ⟨"x", "NaN", "NaN", "$1", "C", "11111", some 1⟩)]
  exact ⟨h.1 (by decide), h.2 (by decide)⟩

/-! ## Claim C7: running the engine twice -/

theorem except_bind_ok {α β : Type} (a : α) (f : α → Except String β) :
    (Except.ok a >>= f) = f a := rfl

theorem except_bind_error {α β : Type} (e : String) (f : α → Except String β) :
    ((Except.error e : Except String α) >>= f) = Except.error e := rfl

theorem fst_mem_keysOf {α : Type} {t : List (String × α)} {kv : String × α}
    (h : kv ∈ t) : kv.1 ∈ keysOf t :=
  List.mem_map_of_mem Prod.fst h

theorem innerStep_fst (oracle : String → String → Bool) (dname ddose dcost k : String)
    (v : InvRec) (acc : List (String × InvRec) × MatchStats) (ndir : String × InvRec) :
    (innerStep oracle dname ddose dcost k v acc ndir).1 = acc.1 ∨
    ∃ w, (innerStep oracle dname ddose dcost k v acc ndir).1 = insertAL acc.1 k w := by
  simp only [innerStep]
  repeat' split
  all_goals first
    | exact Or.inl rfl
    | exact Or.inr ⟨_, rfl⟩

theorem keysOf_innerStep (oracle : String → String → Bool) (dname ddose dcost k : String)
    (v : InvRec) (ptab : List (String × InvRec)) (st : MatchStats) (ndir : String × InvRec)
    (hk : k ∈ keysOf ptab) :
    keysOf (innerStep oracle dname ddose dcost k v (ptab, st) ndir).1 = keysOf ptab := by
  rcases innerStep_fst oracle dname ddose dcost k v (ptab, st) ndir with h | ⟨w, h⟩
  · rw [h]
  · rw [h]
    exact keysOf_insertAL_mem _ _ _ hk

theorem keysOf_entryLoop (oracle : String → String → Bool) (dname ddose dcost k : String)
    (v : InvRec) (pt : List (String × InvRec)) :
    ∀ (ptab : List (String × InvRec)) (st : MatchStats) (hm : Option Bool),
      k ∈ keysOf ptab →
      keysOf (entryLoop oracle dname ddose dcost k v pt (ptab, st, hm)).1 = keysOf ptab := by
  induction pt with
  | nil => intro ptab st hm _; rfl
  | cons x rest ih =>
    intro ptab st hm hk
    have heq : entryLoop oracle dname ddose dcost k v (x :: rest) (ptab, st, hm)
        = entryLoop oracle dname ddose dcost k v rest
            ((innerStep oracle dname ddose dcost k v (ptab, st) x).1,
             (innerStep oracle dname ddose dcost k v (ptab, st) x).2.1,
             some (innerStep oracle dname ddose dcost k v (ptab, st) x).2.2) := rfl
    have hkeys := keysOf_innerStep oracle dname ddose dcost k v ptab st x hk
    have hk' : k ∈ keysOf (innerStep oracle dname ddose dcost k v (ptab, st) x).1 := by
      rw [hkeys]; exact hk
    rw [heq, ih _ _ _ hk', hkeys]

theorem doseEntryStep_keys (oracle : String → String → Bool) (pt : List (String × InvRec))
    (ptab : List (String × InvRec)) (st : MatchStats) (hm : Option Bool)
    (kv : String × InvRec) (out : List (String × InvRec) × MatchStats × Option Bool)
    (hk : kv.1 ∈ keysOf ptab)
    (h : doseEntryStep oracle pt (ptab, st, hm) kv = Except.ok out) :
    keysOf out.1 = keysOf ptab := by
  have hkeys := keysOf_entryLoop oracle (lowerStr kv.2.NAME) (lowerStr kv.2.DOSE)
    (lowerStr kv.2.COST) kv.1 kv.2 pt ptab st hm hk
  simp only [doseEntryStep] at h
  split at h
  · cases h
  · split at h
    · rw [Except.ok.injEq] at h
      subst h
      exact hkeys
    · rw [Except.ok.injEq] at h
      subst h
      exact hkeys

theorem foldlM_dose_keys (oracle : String → String → Bool) (pt : List (String × InvRec)) :
    ∀ (kvs : List (String × InvRec)) (ptab : List (String × InvRec)) (st : MatchStats)
      (hm : Option Bool) (out : List (String × InvRec) × MatchStats × Option Bool),
      (∀ kv ∈ kvs, kv.1 ∈ keysOf ptab) →
      kvs.foldlM (fun a kv => doseEntryStep oracle pt a kv) (ptab, st, hm) = Except.ok out →
      keysOf out.1 = keysOf ptab := by
  intro kvs
  induction kvs with
  | nil =>
    intro ptab st hm out _ h
    rw [List.foldlM_nil] at h
    rw [show (pure (ptab, st, hm) : Except String _) = Except.ok (ptab, st, hm) from rfl,
      Except.ok.injEq] at h
    subst h
    rfl
  | cons kv rest ih =>
    intro ptab st hm out hall h
    rw [List.foldlM_cons] at h
    cases hstep : doseEntryStep oracle pt (ptab, st, hm) kv with
    | error e => rw [hstep, except_bind_error] at h; simp at h
    | ok mid =>
      rw [hstep, except_bind_ok] at h
      obtain ⟨m1, m2, m3⟩ := mid
      have hk1 := doseEntryStep_keys oracle pt ptab st hm kv (m1, m2, m3)
        (hall kv (List.mem_cons_self kv rest)) hstep
      have hall' : ∀ kv' ∈ rest, kv'.1 ∈ keysOf m1 := by
        intro kv' hkv'
        rw [show keysOf m1 = keysOf (m1, m2, m3).1 from rfl, hk1]
        exact hall kv' (List.mem_cons_of_mem kv hkv')
      have hout := ih m1 m2 m3 out hall' h
      rw [hout]
      exact hk1

theorem recordStep_shape (oracle : String → String → Bool) (pt : List (String × InvRec))
    (L : List FormularyRecord) (st : MatchStats) (hm : Option Bool)
    (record : FormularyRecord) (out : List FormularyRecord × MatchStats × Option Bool)
    (h : recordStep oracle pt (L, st, hm) record = Except.ok out) :
    ∃ ptab' st' hm',
      out = (L ++ [{ set_PRICETABLE record with PRICETABLE := ptab' }], st', hm')
      ∧ keysOf ptab' = keysOf (set_PRICETABLE record).PRICETABLE
      ∧ (set_PRICETABLE record).PRICETABLE.foldlM
          (fun a kv => doseEntryStep oracle pt a kv)
          ((set_PRICETABLE record).PRICETABLE, st, hm) = Except.ok (ptab', st', hm') := by
  simp only [recordStep] at h
  cases hf : (set_PRICETABLE record).PRICETABLE.foldlM
      (fun a kv => doseEntryStep oracle pt a kv)
      ((set_PRICETABLE record).PRICETABLE, st, hm) with
  | error e => rw [hf, except_bind_error] at h; cases h
  | ok res =>
    rw [hf, except_bind_ok] at h
    obtain ⟨r1, r2, r3⟩ := res
    rw [Except.ok.injEq] at h
    subst h
    refine ⟨r1, r2, r3, ?_, ?_, ?_⟩
    · rfl
    · exact foldlM_dose_keys oracle pt (set_PRICETABLE record).PRICETABLE
        (set_PRICETABLE record).PRICETABLE st hm (r1, r2, r3)
        (fun kv hkv => fst_mem_keysOf hkv) hf
    · exact hf ▸ rfl

theorem lookupAL_buildPT (name category : String) :
    ∀ (dc : List (String × String)) (t : List (String × InvRec)) (k : String),
      lookupAL (buildPT name category dc t) k
        = lastDoseValAux name category k (lookupAL t k) dc := by
  intro dc
  induction dc with
  | nil => intro t k; rfl
  | cons d rest ih =>
    intro t k
    have h1 : buildPT name category (d :: rest) t
        = buildPT name category rest (doseInsert name category t d) := rfl
    rw [h1, ih]
    have h2 : lookupAL (doseInsert name category t d) k
        = (if name ++ " " ++ d.2 = k
           then some (doseEntryRec name category (name ++ " " ++ d.2) d.2 d.1)
           else lookupAL t k) := by
      by_cases hk : name ++ " " ++ d.2 = k
      · rw [if_pos hk]
        show lookupAL (insertAL t (name ++ " " ++ d.2) _) k = _
        rw [hk, lookupAL_insertAL_self]
      · rw [if_neg hk]
        exact lookupAL_insertAL_ne t (name ++ " " ++ d.2) k _ (fun hh => hk hh.symm)
    rw [h2]
    rfl

theorem keysOf_buildPT (name category : String) :
    ∀ (dc : List (String × String)) (t : List (String × InvRec)),
      keysOf (buildPT name category dc t) = keysOf t ++ newKeys name (keysOf t) dc := by
  intro dc
  induction dc with
  | nil => intro t; simp [buildPT, newKeys]
  | cons d rest ih =>
    intro t
    have h1 : buildPT name category (d :: rest) t
        = buildPT name category rest (doseInsert name category t d) := rfl
    rw [h1, ih]
    by_cases hk : name ++ " " ++ d.2 ∈ keysOf t
    · have h2 : keysOf (doseInsert name category t d) = keysOf t :=
        keysOf_insertAL_mem t _ _ hk
      rw [h2]
      have h3 : newKeys name (keysOf t) (d :: rest) = newKeys name (keysOf t) rest := by
        rw [newKeys, if_pos hk]
      rw [h3]
    · have h2 : keysOf (doseInsert name category t d) = keysOf t ++ [name ++ " " ++ d.2] :=
        keysOf_insertAL_not_mem t _ _ hk
      rw [h2]
      have h3 : newKeys name (keysOf t) (d :: rest)
          = (name ++ " " ++ d.2) :: newKeys name (keysOf t ++ [name ++ " " ++ d.2]) rest := by
        rw [newKeys, if_neg hk]
      rw [h3, List.append_assoc]
      rfl

theorem newKeys_eq_nil (name : String) :
    ∀ (dc : List (String × String)) (seen : List String),
      (∀ d ∈ dc, name ++ " " ++ d.2 ∈ seen) → newKeys name seen dc = [] := by
  intro dc
  induction dc with
  | nil => intro seen _; rfl
  | cons d rest ih =>
    intro seen hall
    rw [newKeys, if_pos (hall d (List.mem_cons_self d rest))]
    exact ih seen (fun d' hd' => hall d' (List.mem_cons_of_mem d hd'))

theorem mem_newKeys (name : String) :
    ∀ (dc : List (String × String)) (seen : List String) (k : String),
      k ∈ newKeys name seen dc → ∃ d ∈ dc, k = name ++ " " ++ d.2 := by
  intro dc
  induction dc with
  | nil => intro seen k h; cases h
  | cons d rest ih =>
    intro seen k h
    rw [newKeys] at h
    by_cases hk : name ++ " " ++ d.2 ∈ seen
    · rw [if_pos hk] at h
      obtain ⟨d', hd', he⟩ := ih seen k h
      exact ⟨d', List.mem_cons_of_mem d hd', he⟩
    · rw [if_neg hk] at h
      rcases List.mem_cons.mp h with rfl | h
      · exact ⟨d, List.mem_cons_self d rest, rfl⟩
      · obtain ⟨d', hd', he⟩ := ih _ k h
        exact ⟨d', List.mem_cons_of_mem d hd', he⟩

theorem keysOf_buildPT_mono (name category : String) :
    ∀ (dc : List (String × String)) (t : List (String × InvRec)) (k : String),
      k ∈ keysOf t → k ∈ keysOf (buildPT name category dc t) := by
  intro dc
  induction dc with
  | nil => intro t k hk; exact hk
  | cons d rest ih =>
    intro t k hk
    have h1 : buildPT name category (d :: rest) t
        = buildPT name category rest (doseInsert name category t d) := rfl
    rw [h1]
    apply ih
    by_cases hm : name ++ " " ++ d.2 ∈ keysOf t
    · rw [show keysOf (doseInsert name category t d) = keysOf t from
        keysOf_insertAL_mem t _ _ hm]
      exact hk
    · rw [show keysOf (doseInsert name category t d) = keysOf t ++ [name ++ " " ++ d.2] from
        keysOf_insertAL_not_mem t _ _ hm]
      exact List.mem_append_left _ hk

theorem dcKey_mem_keys_buildPT (name category : String) :
    ∀ (dc : List (String × String)) (t : List (String × InvRec)) (d : String × String),
      d ∈ dc → (name ++ " " ++ d.2) ∈ keysOf (buildPT name category dc t) := by
  intro dc
  induction dc with
  | nil => intro t d h; cases h
  | cons d0 rest ih =>
    intro t d h
    have h1 : buildPT name category (d0 :: rest) t
        = buildPT name category rest (doseInsert name category t d0) := rfl
    rw [h1]
    rcases List.mem_cons.mp h with rfl | h
    · apply keysOf_buildPT_mono
      by_cases hm : name ++ " " ++ d.2 ∈ keysOf t
      · rw [show keysOf (doseInsert name category t d) = keysOf t from
          keysOf_insertAL_mem t _ _ hm]
        exact hm
      · rw [show keysOf (doseInsert name category t d) = keysOf t ++ [name ++ " " ++ d.2] from
          keysOf_insertAL_not_mem t _ _ hm]
        exact List.mem_append_right _ (List.mem_singleton_self _)
    · exact ih _ d h

theorem keysOf_buildPT_nodup (name category : String) :
    ∀ (dc : List (String × String)) (t : List (String × InvRec)),
      (keysOf t).Nodup → (keysOf (buildPT name category dc t)).Nodup := by
  intro dc
  induction dc with
  | nil => intro t h; exact h
  | cons d rest ih =>
    intro t h
    have h1 : buildPT name category (d :: rest) t
        = buildPT name category rest (doseInsert name category t d) := rfl
    rw [h1]
    exact ih _ (keysOf_nodup_insertAL t _ _ h)

theorem lastDoseValAux_acc_irrel (name category k : String) :
    ∀ (dc : List (String × String)) (acc acc' : Option InvRec),
      (∃ d ∈ dc, name ++ " " ++ d.2 = k) →
      lastDoseValAux name category k acc dc = lastDoseValAux name category k acc' dc := by
  intro dc
  induction dc with
  | nil => intro acc acc' h; obtain ⟨d, hd, _⟩ := h; cases hd
  | cons d0 rest ih =>
    intro acc acc' h
    rw [lastDoseValAux, lastDoseValAux]
    by_cases hk : name ++ " " ++ d0.2 = k
    · rw [if_pos hk, if_pos hk]
    · rw [if_neg hk, if_neg hk]
      apply ih
      obtain ⟨d, hd, he⟩ := h
      rcases List.mem_cons.mp hd with rfl | hd
      · exact absurd he hk
      · exact ⟨d, hd, he⟩

theorem lastDoseValAux_no_hit (name category k : String) :
    ∀ (dc : List (String × String)) (acc : Option InvRec),
      (∀ d ∈ dc, name ++ " " ++ d.2 ≠ k) →
      lastDoseValAux name category k acc dc = acc := by
  intro dc
  induction dc with
  | nil => intro acc _; rfl
  | cons d0 rest ih =>
    intro acc hall
    rw [lastDoseValAux, if_neg (hall d0 (List.mem_cons_self d0 rest))]
    exact ih acc (fun d hd => hall d (List.mem_cons_of_mem d0 hd))

theorem alist_ext {α : Type} :
    ∀ (t₁ t₂ : List (String × α)), (keysOf t₁).Nodup →
      keysOf t₁ = keysOf t₂ → (∀ k, lookupAL t₁ k = lookupAL t₂ k) → t₁ = t₂ := by
  intro t₁
  induction t₁ with
  | nil =>
    intro t₂ _ hkeys _
    cases t₂ with
    | nil => rfl
    | cons q rest₂ => cases hkeys
  | cons p rest ih =>
    intro t₂ hnd hkeys hlook
    cases t₂ with
    | nil => cases hkeys
    | cons q rest₂ =>
      rw [keysOf_cons, keysOf_cons] at hkeys
      injection hkeys with h1 h2
      have hv := hlook p.1
      rw [lookupAL_cons, lookupAL_cons, if_pos rfl, if_pos h1.symm] at hv
      rw [Option.some.injEq] at hv
      have hnotmem : p.1 ∉ keysOf rest := by
        rw [keysOf_cons] at hnd
        exact (List.nodup_cons.mp hnd).1
      have hlook' : ∀ k, lookupAL rest k = lookupAL rest₂ k := by
        intro k
        by_cases hk : p.1 = k
        · subst hk
          rw [(lookupAL_eq_none_iff rest p.1).mpr hnotmem,
            (lookupAL_eq_none_iff rest₂ p.1).mpr (by rw [← h2]; exact hnotmem)]
        · have := hlook k
          rw [lookupAL_cons, lookupAL_cons, if_neg hk,
            if_neg (fun hh => hk (h1.trans hh))] at this
          exact this
      have hrest := ih rest₂ (by rw [keysOf_cons] at hnd; exact (List.nodup_cons.mp hnd).2)
        h2 hlook'
      subst hrest
      cases p with
      | mk p1 p2 =>
        cases q with
        | mk q1 q2 =>
          simp only at h1 hv
          rw [h1, hv]

theorem buildPT_stable (name category : String) (dc : List (String × String))
    (ptab' : List (String × InvRec))
    (hkeys : keysOf ptab' = keysOf (buildPT name category dc []))
    (hnd : (keysOf ptab').Nodup) :
    buildPT name category dc ptab' = buildPT name category dc [] := by
  apply alist_ext _ _ (keysOf_buildPT_nodup name category dc ptab' hnd)
  · have hall : ∀ d ∈ dc, name ++ " " ++ d.2 ∈ keysOf ptab' := by
      intro d hd
      rw [hkeys]
      exact dcKey_mem_keys_buildPT name category dc [] d hd
    rw [keysOf_buildPT name category dc ptab',
      newKeys_eq_nil name dc (keysOf ptab') hall, List.append_nil, hkeys]
  · intro k
    rw [lookupAL_buildPT, lookupAL_buildPT]
    by_cases hhit : ∃ d ∈ dc, name ++ " " ++ d.2 = k
    · exact lastDoseValAux_acc_irrel name category k dc _ _ hhit
    · push_neg at hhit
      rw [lastDoseValAux_no_hit name category k dc _ hhit,
        lastDoseValAux_no_hit name category k dc _ hhit]
      have hknot : k ∉ keysOf (buildPT name category dc []) := by
        intro hk
        rw [keysOf_buildPT] at hk
        rw [keysOf_nil, List.nil_append] at hk
        obtain ⟨d, hd, he⟩ := mem_newKeys name dc [] k hk
        exact hhit d hd he.symm
      rw [(lookupAL_eq_none_iff ptab' k).mpr (by rw [hkeys]; exact hknot)]
      rw [(lookupAL_eq_none_iff [] k).mpr (by intro hh; cases hh)]

theorem set_PRICETABLE_replay (record : FormularyRecord) (hPT : record.PRICETABLE = [])
    (ptab' : List (String × InvRec))
    (hkeys : keysOf ptab' = keysOf (set_PRICETABLE record).PRICETABLE) :
    set_PRICETABLE { set_PRICETABLE record with PRICETABLE := ptab' }
      = set_PRICETABLE record := by
  have h1 : (set_PRICETABLE record).PRICETABLE
      = buildPT record.NAME record.CATEGORY record.DOSECOST [] := by
    simp only [set_PRICETABLE]
    rw [hPT]
  have hkeys' : keysOf ptab' = keysOf (buildPT record.NAME record.CATEGORY record.DOSECOST []) := by
    rw [hkeys, h1]
  have hnd : (keysOf ptab').Nodup := by
    rw [hkeys']
    exact keysOf_buildPT_nodup record.NAME record.CATEGORY record.DOSECOST [] List.nodup_nil
  have hstable := buildPT_stable record.NAME record.CATEGORY record.DOSECOST ptab' hkeys' hnd
  simp only [set_PRICETABLE]
  rw [hPT]
  exact congrArg (fun pt => { record with PRICETABLE := pt }) hstable

theorem recordStep_replay (oracle : String → String → Bool) (pt : List (String × InvRec))
    (record : FormularyRecord) (hPT : record.PRICETABLE = [])
    (L L' : List FormularyRecord) (st : MatchStats) (hm : Option Bool)
    (out : List FormularyRecord × MatchStats × Option Bool)
    (h : recordStep oracle pt (L, st, hm) record = Except.ok out) :
    ∃ r1 st1 hm1, out = (L ++ [r1], st1, hm1)
      ∧ recordStep oracle pt (L', st, hm) r1 = Except.ok (L' ++ [r1], st1, hm1) := by
  obtain ⟨ptab', st1, hm1, hout, hkeys, hfold⟩ :=
    recordStep_shape oracle pt L st hm record out h
  refine ⟨{ set_PRICETABLE record with PRICETABLE := ptab' }, st1, hm1, hout, ?_⟩
  have hset : set_PRICETABLE { set_PRICETABLE record with PRICETABLE := ptab' }
      = set_PRICETABLE record := set_PRICETABLE_replay record hPT ptab' hkeys
  simp only [recordStep, hset]
  rw [hfold, except_bind_ok]

theorem foldlM_records_replay (oracle : String → String → Bool)
    (pt : List (String × InvRec)) :
    ∀ (fs : List FormularyRecord) (L L' : List FormularyRecord) (st : MatchStats)
      (hm : Option Bool) (out : List FormularyRecord × MatchStats × Option Bool),
      (∀ r ∈ fs, r.PRICETABLE = []) →
      fs.foldlM (fun a r => recordStep oracle pt a r) (L, st, hm) = Except.ok out →
      ∃ recs st' hm', out = (L ++ recs, st', hm')
        ∧ recs.foldlM (fun a r => recordStep oracle pt a r) (L', st, hm)
            = Except.ok (L' ++ recs, st', hm') := by
  intro fs
  induction fs with
  | nil =>
    intro L L' st hm out _ h
    rw [List.foldlM_nil] at h
    rw [show (pure (L, st, hm) : Except String _) = Except.ok (L, st, hm) from rfl,
      Except.ok.injEq] at h
    subst h
    exact ⟨[], st, hm, by simp, by simp [List.foldlM_nil]; rfl⟩
  | cons r rest ih =>
    intro L L' st hm out hall h
    rw [List.foldlM_cons] at h
    cases hstep : recordStep oracle pt (L, st, hm) r with
    | error e => rw [hstep, except_bind_error] at h; cases h
    | ok mid =>
      rw [hstep, except_bind_ok] at h
      obtain ⟨r1, st1, hm1, hmid, hreplay⟩ := recordStep_replay oracle pt r
        (hall r (List.mem_cons_self r rest)) L L' st hm mid hstep
      subst hmid
      obtain ⟨recs, st', hm', hout, hfold⟩ := ih (L ++ [r1]) (L' ++ [r1]) st1 hm1 out
        (fun rr hrr => hall rr (List.mem_cons_of_mem r hrr)) h
      refine ⟨r1 :: recs, st', hm', ?_, ?_⟩
      · rw [hout, List.append_assoc]
        rfl
      · rw [List.foldlM_cons, hreplay, except_bind_ok, hfold, List.append_assoc]
        rfl

/-- C7 (amended): with the per-dose tables starting empty (as the formulary
constructor produces them), running the matching engine twice in succession
on the same formulary and price table yields identical formulary output AND
identical diagnostics: the second run repeats the same price changes (it does
NOT record zero), because `_set_PRICETABLE` rebuilds every per-dose table
from the unchanged `DOSECOST` pairs at the start of each run, resetting the
costs before matching. -/
theorem claim7_amended (oracle : String → String → Bool)
    (f f1 : List FormularyRecord) (pt : List (String × InvRec)) (st1 : MatchStats)
    (hPT : ∀ r ∈ f, r.PRICETABLE = [])
    (h : formulary_update oracle f pt = Except.ok (f1, st1)) :
    formulary_update oracle f1 pt = Except.ok (f1, st1) := by
  simp only [formulary_update] at h ⊢
  cases hf : f.foldlM (fun a r => recordStep oracle pt a r)
      ([], ⟨0, 0, 0, [], []⟩, none) with
  | error e => rw [hf, except_bind_error] at h; cases h
  | ok res =>
    rw [hf, except_bind_ok] at h
    obtain ⟨R, S, H⟩ := res
    rw [Except.ok.injEq, Prod.mk.injEq] at h
    have h1 : R = f1 := h.1
    have h2 : S = st1 := h.2
    obtain ⟨recs, st', hm', hout, hfold⟩ := foldlM_records_replay oracle pt f [] []
      ⟨0, 0, 0, [], []⟩ none (R, S, H) hPT hf
    rw [Prod.mk.injEq, Prod.mk.injEq] at hout
    have hR : R = recs := by
      have := hout.1
      simpa using this
    have hS : S = st' := hout.2.1
    have hf1 : f1 = recs := h1.symm.trans hR
    have hst : st1 = st' := h2.symm.trans hS
    rw [hf1, hst]
    rw [show ([] : List FormularyRecord) ++ recs = recs from rfl] at hfold
    rw [hfold, except_bind_ok]

/-- C7 (corrected), counterexample: on the aspirin scenario the first run
records one price change; the second run yields the identical output but
records ONE price change again (because the per-dose table is rebuilt from
`DOSECOST`), not the zero additional changes the claim asserts. -/
theorem claim7_counterexample :
    ∃ (f1 : List FormularyRecord) (st1 : MatchStats),
      formulary_update (fun _ _ => false)
          [⟨"aspirin", false, [("$0.10", "81mg")], [], "oral", "ANALGESICS"⟩]
          [("aspirin 81mg tablet",
            ⟨"aspirin 81mg tablet", "NaN", "NaN", "$0.15", "CAT", "54321", some 100⟩)]
        = Except.ok (f1, st1)
      ∧ formulary_update (fun _ _ => false) f1
          [("aspirin 81mg tablet",
            ⟨"aspirin 81mg tablet", "NaN", "NaN", "$0.15", "CAT", "54321", some 100⟩)]
        = Except.ok (f1, st1)
      ∧ st1.pricechanges = 1 ∧ st1.pricechanges ≠ 0 :=
  ⟨[⟨"aspirin", false, [("$0.10", "81mg")],
     [("aspirin 81mg",
       ⟨"aspirin 81mg", "aspirin", "81mg", "$0.15", "ANALGESICS", "54321", none⟩)],
     "oral", "ANALGESICS"⟩],
   ⟨1, 1, 1, [], []⟩, rfl, rfl, rfl, by decide⟩

/-- Witness for C7: the aspirin formulary (empty initial per-dose table) and
its first-run output replayed through the engine. -/
theorem claim7_witness :
    formulary_update (fun _ _ => false)
        [⟨"aspirin", false, [("$0.10", "81mg")],
          [("aspirin 81mg",
            ⟨"aspirin 81mg", "aspirin", "81mg", "$0.15", "ANALGESICS", "54321", none⟩)],
          "oral", "ANALGESICS"⟩]
        [("aspirin 81mg tablet",
          ⟨"aspirin 81mg tablet", "NaN", "NaN", "$0.15", "CAT", "54321", some 100⟩)]
      = Except.ok
          ([⟨"aspirin", false, [("$0.10", "81mg")],
            [("aspirin 81mg",
              ⟨"aspirin 81mg", "aspirin", "81mg", "$0.15", "ANALGESICS", "54321", none⟩)],
            "oral", "ANALGESICS"⟩],
           ⟨1, 1, 1, [], []⟩) :=
  claim7_amended (fun _ _ => false)
    [⟨"aspirin", false, [("$0.10", "81mg")], [], "oral", "ANALGESICS"⟩]
    [⟨"aspirin", false, [("$0.10", "81mg")],
      [("aspirin 81mg",
        ⟨"aspirin 81mg", "aspirin", "81mg", "$0.15", "ANALGESICS", "54321", none⟩)],
      "oral", "ANALGESICS"⟩]
    [("aspirin 81mg tablet",
      ⟨"aspirin 81mg tablet", "NaN", "NaN", "$0.15", "CAT", "54321", some 100⟩)]
    ⟨1, 1, 1, [], []⟩
    (by intro r hr; rcases List.mem_cons.mp hr with rfl | hh; rfl; cases hh)
    rfl

/-! ## Claim C8: Markdown round trip -/

theorem string_mk_data (s : String) : String.mk s.data = s := by
  cases s
  rfl

theorem string_data_append (s t : String) : (s ++ t).data = s.data ++ t.data := by
  cases s
  cases t
  rfl

/-- C8 (corrected), counterexample: a record whose cost "free" does not match
the dollar-amount pattern serializes to `free (81mg)`, which `_get_DOSECOST`
cannot re-extract, so the reparsed record loses its dose/cost pair. -/
theorem claim8_counterexample :
    reparseLine (to_markdown (set_PRICETABLE
        ⟨"aspirin", false, [("free", "81mg")], [], "oral", "CAT"⟩)) "CAT"
      = some ⟨"aspirin", false, [], [], "oral", "CAT"⟩ ∧
    ([] : List (String × String)) ≠ [("free", "81mg")] :=
  ⟨by decide, by decide⟩

/-! ### C8, stage 1: soundness of the executable well-formedness checks -/

theorem mem_takeWhile_pred {p : Char → Bool} :
    ∀ (l : List Char) (c : Char), c ∈ l.takeWhile p → p c = true := by
  intro l
  induction l with
  | nil => intro c hc; cases hc
  | cons a l ih =>
    intro c hc
    by_cases hp : p a = true
    · rw [List.takeWhile_cons_of_pos hp] at hc
      rcases List.mem_cons.mp hc with rfl | hc
      · exact hp
      · exact ih c hc
    · rw [List.takeWhile_cons_of_neg hp] at hc
      cases hc

theorem takeWhile_stop (p : Char → Bool) :
    ∀ (ds : List Char) (c : Char) (t : List Char),
      (∀ x ∈ ds, p x = true) → p c = false →
      (ds ++ c :: t).takeWhile p = ds := by
  intro ds
  induction ds with
  | nil =>
    intro c t _ hc
    rw [List.nil_append, List.takeWhile_cons_of_neg (by simp [hc])]
  | cons a ds ih =>
    intro c t hall hc
    rw [List.cons_append, List.takeWhile_cons_of_pos (hall a (List.mem_cons_self a ds)),
      ih c t (fun x hx => hall x (List.mem_cons_of_mem a hx)) hc]

theorem dropWhile_stop (p : Char → Bool) :
    ∀ (ds : List Char) (c : Char) (t : List Char),
      (∀ x ∈ ds, p x = true) → p c = false →
      (ds ++ c :: t).dropWhile p = c :: t := by
  intro ds
  induction ds with
  | nil =>
    intro c t _ hc
    rw [List.nil_append, List.dropWhile_cons_of_neg (by simp [hc])]
  | cons a ds ih =>
    intro c t hall hc
    rw [List.cons_append, List.dropWhile_cons_of_pos (hall a (List.mem_cons_self a ds)),
      ih c t (fun x hx => hall x (List.mem_cons_of_mem a hx)) hc]

theorem wfmoney_sound : ∀ C : List Char, WFmoneyB C = true → WFmoneyP C := by
  intro C h
  cases C with
  | nil => cases h
  | cons c rest =>
    simp only [WFmoneyB, Bool.and_eq_true, Bool.or_eq_true, beq_iff_eq] at h
    obtain ⟨⟨hc, hne⟩, hr2⟩ := h
    subst hc
    have htd := List.takeWhile_append_dropWhile Char.isDigit rest
    refine ⟨rest.takeWhile Char.isDigit, ?_, ?_, ?_⟩
    · intro hnil
      rw [hnil] at hne
      simp at hne
    · intro x hx
      exact mem_takeWhile_pred rest x hx
    · rcases hr2 with he | hd
      · left
        rw [List.isEmpty_iff] at he
        rw [he, List.append_nil] at htd
        rw [htd]
      · obtain ⟨⟨hhead, hne2⟩, hall2⟩ := hd
        cases hr : rest.dropWhile Char.isDigit with
        | nil => rw [hr] at hhead; simp at hhead
        | cons c2 ds2 =>
          rw [hr] at hhead hne2 hall2 htd
          simp only [List.head?_cons, beq_iff_eq, Option.some.injEq] at hhead
          subst hhead
          rw [List.tail_cons] at hne2 hall2
          right
          refine ⟨ds2, ?_, ?_, ?_⟩
          · intro hnil
            rw [hnil] at hne2
            simp at hne2
          · intro x hx
            exact List.all_eq_true.mp hall2 x hx
          · rw [List.cons_append, htd]

theorem splitDash_some :
    ∀ (C m1 m2 : List Char), splitDash C = some (m1, m2) → C = m1 ++ '-' :: m2 := by
  intro C
  induction C with
  | nil => intro m1 m2 h; cases h
  | cons c rest ih =>
    intro m1 m2 h
    by_cases hc : c = '-'
    · subst hc
      simp only [splitDash, if_pos] at h
      rw [Option.some.injEq, Prod.mk.injEq] at h
      rw [← h.1, ← h.2]
      rfl
    · simp only [splitDash, if_neg hc] at h
      cases hs : splitDash rest with
      | none => rw [hs] at h; cases h
      | some p =>
        obtain ⟨a, b⟩ := p
        rw [hs] at h
        simp only [Option.map_some'] at h
        rw [Option.some.injEq, Prod.mk.injEq] at h
        rw [← h.1, ← h.2, ih a b hs, List.cons_append]

theorem wfcost_sound : ∀ C : List Char, WFcostB C = true → WFcostP C := by
  intro C h
  cases hs : splitDash C with
  | none =>
    simp only [WFcostB, hs] at h
    exact Or.inl (wfmoney_sound C h)
  | some p =>
    obtain ⟨m1, m2⟩ := p
    simp only [WFcostB, hs, Bool.and_eq_true] at h
    exact Or.inr ⟨m1, m2, wfmoney_sound m1 h.1, wfmoney_sound m2 h.2,
      splitDash_some C m1 m2 hs⟩

theorem wfcost_cons {C : List Char} (h : WFcostP C) : ∃ t0 : List Char, C = '$' :: t0 := by
  rcases h with hm | ⟨m1, m2, hm1, _, hC⟩
  · obtain ⟨ds, _, _, hC | ⟨ds2, _, _, hC⟩⟩ := hm
    · exact ⟨ds, hC⟩
    · exact ⟨ds ++ '.' :: ds2, hC⟩
  · obtain ⟨ds, _, _, h1 | ⟨ds2, _, _, h1⟩⟩ := hm1
    · exact ⟨ds ++ '-' :: m2, by rw [hC, h1]; rfl⟩
    · exact ⟨(ds ++ '.' :: ds2) ++ '-' :: m2, by rw [hC, h1]; rfl⟩

theorem wfmoney_chars {C : List Char} (h : WFmoneyP C) :
    ∀ c ∈ C, c = '$' ∨ c = '.' ∨ c.isDigit = true := by
  obtain ⟨ds, _, hall, hC | ⟨ds2, _, hall2, hC⟩⟩ := h
  · intro c hc
    rw [hC] at hc
    rcases List.mem_cons.mp hc with rfl | hc
    · exact Or.inl rfl
    · exact Or.inr (Or.inr (hall c hc))
  · intro c hc
    rw [hC] at hc
    rcases List.mem_cons.mp hc with rfl | hc
    · exact Or.inl rfl
    · rcases List.mem_append.mp hc with h1 | h2
      · exact Or.inr (Or.inr (hall c h1))
      · rcases List.mem_cons.mp h2 with rfl | h3
        · exact Or.inr (Or.inl rfl)
        · exact Or.inr (Or.inr (hall2 c h3))

theorem wfcost_chars {C : List Char} (h : WFcostP C) :
    ∀ c ∈ C, c = '$' ∨ c = '.' ∨ c = '-' ∨ c.isDigit = true := by
  rcases h with hm | ⟨m1, m2, h1, h2, hC⟩
  · intro c hc
    rcases wfmoney_chars hm c hc with h | h | h
    exacts [Or.inl h, Or.inr (Or.inl h), Or.inr (Or.inr (Or.inr h))]
  · intro c hc
    rw [hC] at hc
    rcases List.mem_append.mp hc with ha | hb
    · rcases wfmoney_chars h1 c ha with h | h | h
      exacts [Or.inl h, Or.inr (Or.inl h), Or.inr (Or.inr (Or.inr h))]
    · rcases List.mem_cons.mp hb with rfl | hb2
      · exact Or.inr (Or.inr (Or.inl rfl))
      · rcases wfmoney_chars h2 c hb2 with h | h | h
        exacts [Or.inl h, Or.inr (Or.inl h), Or.inr (Or.inr (Or.inr h))]

/-! ### C8, stage 2: on an empty table, `_set_PRICETABLE` is a plain map -/

theorem keysOf_append {α : Type} (a b : List (String × α)) :
    keysOf (a ++ b) = keysOf a ++ keysOf b := List.map_append _ _ _

theorem insertAL_fresh {α : Type} :
    ∀ (t : List (String × α)) (k : String) (v : α),
      k ∉ keysOf t → insertAL t k v = t ++ [(k, v)] := by
  intro t
  induction t with
  | nil => intro k v _; rfl
  | cons p rest ih =>
    intro k v hk
    have hp : p.1 ≠ k := by
      intro hh
      exact hk (by rw [keysOf_cons, hh]; exact List.mem_cons_self _ _)
    have hrest : k ∉ keysOf rest := by
      intro hh
      exact hk (by rw [keysOf_cons]; exact List.mem_cons_of_mem _ hh)
    rw [insertAL_cons, if_neg hp, ih k v hrest, List.cons_append]

theorem str_append_left_cancel (p a b : String) (h : p ++ a = p ++ b) : a = b := by
  have hd : p.data ++ a.data = p.data ++ b.data := by
    rw [← string_data_append, ← string_data_append, h]
  have h2 := List.append_cancel_left hd
  calc a = String.mk a.data := (string_mk_data a).symm
    _ = String.mk b.data := congrArg String.mk h2
    _ = b := string_mk_data b

theorem dose_keys_nodup (name : String) (dc : List (String × String))
    (h : (dc.map Prod.snd).Nodup) :
    (dc.map (fun d => name ++ " " ++ d.2)).Nodup := by
  rw [show dc.map (fun d => name ++ " " ++ d.2)
      = (dc.map Prod.snd).map (fun s => name ++ " " ++ s) from (List.map_map _ _ _).symm]
  exact h.map (fun a b hab => str_append_left_cancel (name ++ " ") a b hab)

theorem buildPT_fresh (name category : String) :
    ∀ (dc : List (String × String)) (t : List (String × InvRec)),
      (∀ d ∈ dc, (name ++ " " ++ d.2) ∉ keysOf t) →
      (dc.map (fun d => name ++ " " ++ d.2)).Nodup →
      buildPT name category dc t
        = t ++ dc.map (fun d =>
            (name ++ " " ++ d.2,
             doseEntryRec name category (name ++ " " ++ d.2) d.2 d.1)) := by
  intro dc
  induction dc with
  | nil => intro t _ _; simp [buildPT]
  | cons d dc ih =>
    intro t hdisj hnd
    rw [List.map_cons, List.nodup_cons] at hnd
    rw [show buildPT name category (d :: dc) t
        = buildPT name category dc (doseInsert name category t d) from rfl]
    rw [show doseInsert name category t d
        = insertAL t (name ++ " " ++ d.2)
            (doseEntryRec name category (name ++ " " ++ d.2) d.2 d.1) from rfl]
    rw [insertAL_fresh t _ _ (hdisj d (List.mem_cons_self d dc))]
    rw [ih (t ++ [(name ++ " " ++ d.2,
          doseEntryRec name category (name ++ " " ++ d.2) d.2 d.1)]) ?_ hnd.2]
    · rw [List.append_assoc, List.map_cons]
      rfl
    · intro d' hd'
      rw [keysOf_append, List.mem_append]
      push_neg
      constructor
      · exact hdisj d' (List.mem_cons_of_mem d hd')
      · rw [show keysOf [(name ++ " " ++ d.2,
            doseEntryRec name category (name ++ " " ++ d.2) d.2 d.1)]
            = [name ++ " " ++ d.2] from rfl, List.mem_singleton]
        intro he
        exact hnd.1 (he ▸ List.mem_map_of_mem (fun x => name ++ " " ++ x.2) hd')

theorem set_PRICETABLE_map (r : FormularyRecord) (hpt : r.PRICETABLE = [])
    (hnd : (r.DOSECOST.map Prod.snd).Nodup) :
    (set_PRICETABLE r).PRICETABLE
      = r.DOSECOST.map (fun d =>
          (r.NAME ++ " " ++ d.2,
           doseEntryRec r.NAME r.CATEGORY (r.NAME ++ " " ++ d.2) d.2 d.1)) := by
  show buildPT r.NAME r.CATEGORY r.DOSECOST r.PRICETABLE = _
  rw [hpt, buildPT_fresh r.NAME r.CATEGORY r.DOSECOST []
    (by intro d _ h; cases h) (dose_keys_nodup r.NAME r.DOSECOST hnd), List.nil_append]

theorem to_markdown_set (r : FormularyRecord) (hpt : r.PRICETABLE = [])
    (hnd : (r.DOSECOST.map Prod.snd).Nodup) :
    to_markdown (set_PRICETABLE r)
      = '>' :: ' ' :: (if r.BLACKLISTED then ['~'] else []) ++ r.NAME.data
        ++ ' ' :: '|' :: ' ' :: joinComma (r.DOSECOST.map segFn)
        ++ ' ' :: '|' :: ' ' :: r.SUBCATEGORY.data := by
  have hmap : (set_PRICETABLE r).PRICETABLE.map
      (fun kv => kv.2.COST.data ++ ' ' :: '(' :: kv.2.DOSE.data ++ [')'])
      = r.DOSECOST.map segFn := by
    rw [set_PRICETABLE_map r hpt hnd, List.map_map]
    rfl
  show '>' :: ' ' :: (if r.BLACKLISTED then ['~'] else []) ++ r.NAME.data
      ++ ' ' :: '|' :: ' ' :: joinComma ((set_PRICETABLE r).PRICETABLE.map
        (fun kv => kv.2.COST.data ++ ' ' :: '(' :: kv.2.DOSE.data ++ [')']))
      ++ ' ' :: '|' :: ' ' :: r.SUBCATEGORY.data = _
  rw [hmap]

/-! ### C8, stage 3: `_DOSECOSTPATT_` on a serialized segment -/

theorem splitsDescFrom_head (s : List Char) (n : Nat) :
    ∃ junk, splitsDescFrom s n = (s.take n, s.drop n) :: junk := by
  cases n with
  | zero => exact ⟨[], rfl⟩
  | succ m => exact ⟨splitsDescFrom s m, rfl⟩

theorem splitsDescFrom_ne_nil (s : List Char) (n : Nat) : splitsDescFrom s n ≠ [] := by
  cases n with
  | zero => intro h; cases h
  | succ m => intro h; cases h

theorem dropLast_cons_ne {α : Type} (a : α) (l : List α) (h : l ≠ []) :
    (a :: l).dropLast = a :: l.dropLast := by
  cases l with
  | nil => exact absurd rfl h
  | cons b m => rfl

theorem starGreedy_head (p : Char → Bool) (ds : List Char) (c : Char) (t : List Char)
    (hall : ∀ x ∈ ds, p x = true) (hc : p c = false) :
    ∃ junk, starGreedy p (ds ++ c :: t) = (ds, c :: t) :: junk := by
  unfold starGreedy
  rw [takeWhile_stop p ds c t hall hc]
  obtain ⟨junk, hj⟩ := splitsDescFrom_head (ds ++ c :: t) ds.length
  rw [hj, List.take_left, List.drop_left]
  exact ⟨junk, rfl⟩

theorem plusGreedy_head (p : Char → Bool) (ds : List Char) (c : Char) (t : List Char)
    (hds : ds ≠ []) (hall : ∀ x ∈ ds, p x = true) (hc : p c = false) :
    ∃ junk, plusGreedy p (ds ++ c :: t) = (ds, c :: t) :: junk := by
  obtain ⟨m, hm⟩ : ∃ m, ds.length = m + 1 := by
    cases ds with
    | nil => exact absurd rfl hds
    | cons a l => exact ⟨l.length, rfl⟩
  unfold plusGreedy starGreedy
  rw [takeWhile_stop p ds c t hall hc, hm]
  rw [show splitsDescFrom (ds ++ c :: t) (m + 1)
      = ((ds ++ c :: t).take (m + 1), (ds ++ c :: t).drop (m + 1))
        :: splitsDescFrom (ds ++ c :: t) m from rfl]
  rw [dropLast_cons_ne _ _ (splitsDescFrom_ne_nil _ _)]
  rw [List.take_left' hm, List.drop_left' hm]
  exact ⟨(splitsDescFrom (ds ++ c :: t) m).dropLast, rfl⟩

theorem optGreedy_neg (p : Char → Bool) (c : Char) (rest : List Char) (hc : p c = false) :
    optGreedy p (c :: rest) = [([], c :: rest)] := by
  rw [show optGreedy p (c :: rest)
      = if p c = true then [([c], rest), ([], c :: rest)] else [([], c :: rest)] from rfl]
  rw [if_neg (by simp [hc])]

theorem optGreedy_pos (p : Char → Bool) (c : Char) (rest : List Char) (hc : p c = true) :
    optGreedy p (c :: rest) = [([c], rest), ([], c :: rest)] := by
  rw [show optGreedy p (c :: rest)
      = if p c = true then [([c], rest), ([], c :: rest)] else [([], c :: rest)] from rfl]
  rw [if_pos hc]

theorem concatMap_cons {α β : Type} (f : α → List β) (a : α) (l : List α) :
    concatMap f (a :: l) = f a ++ concatMap f l := rfl

theorem moneyM_nil_of_ne (c : Char) (s : List Char) (hc : c ≠ '$') :
    moneyM (c :: s) = [] := by
  simp only [moneyM]
  rw [if_neg hc]

theorem moneyM_head_simple (ds : List Char) (c : Char) (t : List Char)
    (hds : ds ≠ []) (hall : ∀ x ∈ ds, x.isDigit = true)
    (hc1 : c.isDigit = false) (hc2 : c ≠ '.') :
    ∃ junk, moneyM ('$' :: (ds ++ c :: t)) = ('$' :: ds, c :: t) :: junk := by
  have hdd : isDotDigit c = false := by simp [isDotDigit, hc1, hc2]
  obtain ⟨j1, hj1⟩ := plusGreedy_head Char.isDigit ds c t hds hall hc1
  obtain ⟨j3, hj3⟩ := starGreedy_head Char.isDigit [] c t (by intro x hx; cases hx) hc1
  rw [List.nil_append] at hj3
  apply Exists.intro
  rw [show moneyM ('$' :: (ds ++ c :: t))
      = concatMap (fun d1 =>
          concatMap (fun d2 =>
            (starGreedy Char.isDigit d2.2).map
              (fun d3 => ('$' :: (d1.1 ++ (d2.1 ++ d3.1)), d3.2)))
            (optGreedy isDotDigit d1.2))
          (plusGreedy Char.isDigit (ds ++ c :: t)) from rfl]
  rw [hj1, concatMap_cons]
  simp only [optGreedy_neg isDotDigit c t hdd, concatMap_cons, concatMap, hj3,
    List.map_cons, List.nil_append, List.append_nil, List.cons_append]
  rfl

theorem moneyM_head_dot (ds ds2 : List Char) (c : Char) (t : List Char)
    (hds : ds ≠ []) (hall : ∀ x ∈ ds, x.isDigit = true)
    (hall2 : ∀ x ∈ ds2, x.isDigit = true)
    (hc1 : c.isDigit = false) (hc2 : c ≠ '.') :
    ∃ junk, moneyM ('$' :: (ds ++ '.' :: (ds2 ++ c :: t)))
      = ('$' :: (ds ++ '.' :: ds2), c :: t) :: junk := by
  obtain ⟨j1, hj1⟩ :=
    plusGreedy_head Char.isDigit ds '.' (ds2 ++ c :: t) hds hall (by decide)
  obtain ⟨j3, hj3⟩ := starGreedy_head Char.isDigit ds2 c t hall2 hc1
  apply Exists.intro
  rw [show moneyM ('$' :: (ds ++ '.' :: (ds2 ++ c :: t)))
      = concatMap (fun d1 =>
          concatMap (fun d2 =>
            (starGreedy Char.isDigit d2.2).map
              (fun d3 => ('$' :: (d1.1 ++ (d2.1 ++ d3.1)), d3.2)))
            (optGreedy isDotDigit d1.2))
          (plusGreedy Char.isDigit (ds ++ '.' :: (ds2 ++ c :: t))) from rfl]
  rw [hj1, concatMap_cons]
  simp only [optGreedy_pos isDotDigit '.' (ds2 ++ c :: t) (by decide), concatMap_cons,
    concatMap, hj3, List.map_cons, List.nil_append, List.append_nil, List.cons_append,
    List.singleton_append]
  rfl

theorem moneyM_headP {C : List Char} (h : WFmoneyP C) (c : Char) (t : List Char)
    (hc1 : c.isDigit = false) (hc2 : c ≠ '.') :
    ∃ junk, moneyM (C ++ c :: t) = (C, c :: t) :: junk := by
  obtain ⟨ds, hne, hall, hC | ⟨ds2, hne2, hall2, hC⟩⟩ := h
  · subst hC
    rw [List.cons_append]
    exact moneyM_head_simple ds c t hne hall hc1 hc2
  · subst hC
    obtain ⟨j, hj⟩ := moneyM_head_dot ds ds2 c t hne hall hall2 hc1 hc2
    refine ⟨j, ?_⟩
    rw [show (('$' :: ds) ++ '.' :: ds2) ++ c :: t
        = '$' :: (ds ++ '.' :: (ds2 ++ c :: t)) by simp]
    rw [hj]
    rfl

theorem mem_concatMap {α β : Type} (f : α → List β) :
    ∀ (l : List α) (x : β), x ∈ concatMap f l → ∃ a ∈ l, x ∈ f a := by
  intro l
  induction l with
  | nil => intro x hx; cases hx
  | cons a l ih =>
    intro x hx
    rw [concatMap_cons, List.mem_append] at hx
    rcases hx with hx | hx
    · exact ⟨a, List.mem_cons_self a l, hx⟩
    · obtain ⟨b, hb, hfb⟩ := ih x hx
      exact ⟨b, List.mem_cons_of_mem a hb, hfb⟩

theorem concatMap_eq_nil {α β : Type} (f : α → List β) :
    ∀ (l : List α), (∀ a ∈ l, f a = []) → concatMap f l = [] := by
  intro l
  induction l with
  | nil => intro _; rfl
  | cons a l ih =>
    intro h
    rw [concatMap_cons, h a (List.mem_cons_self a l), List.nil_append]
    exact ih (fun b hb => h b (List.mem_cons_of_mem a hb))

theorem mem_splitsDescFrom (s : List Char) :
    ∀ (n : Nat) (q : List Char × List Char),
      q ∈ splitsDescFrom s n → ∃ i, i ≤ n ∧ q = (s.take i, s.drop i) := by
  intro n
  induction n with
  | zero =>
    intro q hq
    rw [show splitsDescFrom s 0 = [(s.take 0, s.drop 0)] from rfl, List.mem_singleton] at hq
    exact ⟨0, Nat.le_refl 0, hq⟩
  | succ m ih =>
    intro q hq
    rw [show splitsDescFrom s (m + 1)
        = (s.take (m + 1), s.drop (m + 1)) :: splitsDescFrom s m from rfl,
      List.mem_cons] at hq
    rcases hq with hq | hq
    · exact ⟨m + 1, Nat.le_refl _, hq⟩
    · obtain ⟨i, hi, he⟩ := ih q hq
      exact ⟨i, Nat.le_succ_of_le hi, he⟩

theorem take_pred_of_le_takeWhile (p : Char → Bool) :
    ∀ (s : List Char) (i : Nat), i ≤ (s.takeWhile p).length →
      ∀ c ∈ s.take i, p c = true := by
  intro s
  induction s with
  | nil => intro i _ c hc; simp at hc
  | cons a s ih =>
    intro i h c hc
    by_cases hp : p a = true
    · rw [List.takeWhile_cons_of_pos hp] at h
      cases i with
      | zero => simp at hc
      | succ j =>
        rw [List.take_succ_cons] at hc
        rcases List.mem_cons.mp hc with rfl | hc
        · exact hp
        · exact ih j (Nat.le_of_succ_le_succ h) c hc
    · rw [List.takeWhile_cons_of_neg hp] at h
      have hi0 : i = 0 := Nat.le_zero.mp (by simpa using h)
      subst hi0
      simp at hc

theorem starGreedy_mem (p : Char → Bool) (l : List Char) (q : List Char × List Char)
    (h : q ∈ starGreedy p l) : (∀ ch ∈ q.1, p ch = true) ∧ l = q.1 ++ q.2 := by
  have h' : q ∈ splitsDescFrom l (l.takeWhile p).length := h
  obtain ⟨i, hi, he⟩ := mem_splitsDescFrom l _ q h'
  subst he
  constructor
  · exact take_pred_of_le_takeWhile p l i hi
  · exact (List.take_append_drop i l).symm

theorem plusGreedy_mem (p : Char → Bool) (l : List Char) (q : List Char × List Char)
    (h : q ∈ plusGreedy p l) : (∀ ch ∈ q.1, p ch = true) ∧ l = q.1 ++ q.2 :=
  starGreedy_mem p l q ((List.dropLast_sublist _).mem h)

theorem optGreedy_mem (p : Char → Bool) (l : List Char) (q : List Char × List Char)
    (h : q ∈ optGreedy p l) : (∀ ch ∈ q.1, p ch = true) ∧ l = q.1 ++ q.2 := by
  cases l with
  | nil =>
    rw [show optGreedy p [] = [([], [])] from rfl, List.mem_singleton] at h
    subst h
    exact ⟨fun ch hch => absurd hch (by simp), rfl⟩
  | cons c rest =>
    by_cases hp : p c = true
    · rw [optGreedy_pos p c rest hp, List.mem_cons, List.mem_singleton] at h
      rcases h with h | h
      · subst h
        refine ⟨?_, rfl⟩
        intro ch hch
        rw [List.mem_singleton] at hch
        subst hch
        exact hp
      · subst h
        exact ⟨fun ch hch => absurd hch (by simp), rfl⟩
    · rw [optGreedy_neg p c rest (by simpa using hp), List.mem_singleton] at h
      subst h
      exact ⟨fun ch hch => absurd hch (by simp), rfl⟩

theorem moneyM_shape (s : List Char) (m r : List Char)
    (h : (m, r) ∈ moneyM s) :
    ∃ w, m = '$' :: w ∧ (∀ ch ∈ w, isDotDigit ch = true) ∧ s = m ++ r := by
  cases s with
  | nil => cases h
  | cons c rest =>
    by_cases hc : c = '$'
    · subst hc
      rw [show moneyM ('$' :: rest)
          = concatMap (fun d1 =>
              concatMap (fun d2 =>
                (starGreedy Char.isDigit d2.2).map
                  (fun d3 => ('$' :: (d1.1 ++ (d2.1 ++ d3.1)), d3.2)))
                (optGreedy isDotDigit d1.2))
              (plusGreedy Char.isDigit rest) from rfl] at h
      obtain ⟨d1, hd1, h⟩ := mem_concatMap _ _ _ h
      obtain ⟨d2, hd2, h⟩ := mem_concatMap _ _ _ h
      rw [List.mem_map] at h
      obtain ⟨d3, hd3, heq⟩ := h
      obtain ⟨hall1, hsp1⟩ := plusGreedy_mem Char.isDigit rest d1 hd1
      obtain ⟨hall2, hsp2⟩ := optGreedy_mem isDotDigit d1.2 d2 hd2
      obtain ⟨hall3, hsp3⟩ := starGreedy_mem Char.isDigit d2.2 d3 hd3
      rw [Prod.mk.injEq] at heq
      refine ⟨d1.1 ++ (d2.1 ++ d3.1), heq.1.symm, ?_, ?_⟩
      · intro ch hch
        rcases List.mem_append.mp hch with h1 | h23
        · simp [isDotDigit, hall1 ch h1]
        · rcases List.mem_append.mp h23 with h2 | h3
          · exact hall2 ch h2
          · simp [isDotDigit, hall3 ch h3]
      · rw [← heq.1, ← heq.2]
        rw [hsp1, hsp2, hsp3]
        simp [List.append_assoc]
    · rw [moneyM_nil_of_ne c rest hc] at h
      cases h

theorem prefix_stop (P : Char → Bool) :
    ∀ (w' r ds : List Char) (c0 : Char) (t : List Char),
      w' ++ r = ds ++ c0 :: t → (∀ ch ∈ w', P ch = true) → P c0 = false →
      ∃ ds2, ds = w' ++ ds2 ∧ r = ds2 ++ c0 :: t := by
  intro w'
  induction w' with
  | nil =>
    intro r ds c0 t heq _ _
    exact ⟨ds, rfl, heq⟩
  | cons a w ih =>
    intro r ds c0 t heq hall hc0
    cases ds with
    | nil =>
      rw [List.nil_append, List.cons_append] at heq
      injection heq with h1 h2
      exact absurd (h1 ▸ hall a (List.mem_cons_self a w)) (by simp [hc0])
    | cons b ds' =>
      rw [List.cons_append, List.cons_append] at heq
      injection heq with h1 h2
      obtain ⟨ds2, hd, hr⟩ :=
        ih r ds' c0 t h2 (fun ch hch => hall ch (List.mem_cons_of_mem a hch)) hc0
      exact ⟨ds2, by rw [List.cons_append, ← h1, hd], hr⟩

theorem dashTail_nil_pair (m : List Char) : dashTail (m, []) = [] := rfl

theorem dashTail_cons (m : List Char) (c2 : Char) (r2 : List Char) :
    dashTail (m, c2 :: r2)
      = if c2 = '-' then (moneyM r2).map (fun m2 => (m ++ '-' :: m2.1, m2.2)) else [] := rfl

theorem dashTail_nil_of_shape (body : List Char) (c : Char) (w : List Char)
    (hbody : ∀ x ∈ body, isDotDigit x = true)
    (hc : isDotDigit c = false) (hcd : c ≠ '-') (ma mb : List Char)
    (hm : (ma, mb) ∈ moneyM ('$' :: (body ++ c :: w))) :
    dashTail (ma, mb) = [] := by
  obtain ⟨w', hw'eq, hw'all, hseq⟩ := moneyM_shape _ ma mb hm
  rw [hw'eq, List.cons_append] at hseq
  injection hseq with _ hseq2
  obtain ⟨ds2, hds2, hrest⟩ := prefix_stop isDotDigit w' mb body c w hseq2.symm hw'all hc
  subst hrest
  cases ds2 with
  | nil =>
    rw [List.nil_append, dashTail_cons, if_neg hcd]
  | cons d0 ds2' =>
    have hd0 : isDotDigit d0 = true := by
      apply hbody
      rw [hds2]
      exact List.mem_append.mpr (Or.inr (List.mem_cons_self _ _))
    have hd0' : d0 ≠ '-' := by
      intro hdash
      rw [hdash] at hd0
      exact absurd hd0 (by decide)
    rw [List.cons_append, dashTail_cons, if_neg hd0']

theorem rangeM_nil (body : List Char) (c : Char) (w : List Char)
    (hbody : ∀ x ∈ body, isDotDigit x = true)
    (hc : isDotDigit c = false) (hcd : c ≠ '-') :
    rangeM ('$' :: (body ++ c :: w)) = [] := by
  unfold rangeM
  apply concatMap_eq_nil
  intro a ha
  obtain ⟨ma, mb⟩ := a
  exact dashTail_nil_of_shape body c w hbody hc hcd ma mb ha

theorem rangeM_head (m1 m2 : List Char) (w : List Char)
    (h1 : WFmoneyP m1) (h2 : WFmoneyP m2) (c : Char)
    (hc1 : c.isDigit = false) (hc2 : c ≠ '.') :
    ∃ junk, rangeM ((m1 ++ '-' :: m2) ++ c :: w)
      = (m1 ++ '-' :: m2, c :: w) :: junk := by
  obtain ⟨ja, hja⟩ := moneyM_headP h1 '-' (m2 ++ c :: w) (by decide) (by decide)
  obtain ⟨jb, hjb⟩ := moneyM_headP h2 c w hc1 hc2
  apply Exists.intro
  rw [show (m1 ++ '-' :: m2) ++ c :: w = m1 ++ '-' :: (m2 ++ c :: w) by simp]
  unfold rangeM
  rw [hja, concatMap_cons, dashTail_cons, if_pos rfl, hjb, List.map_cons, List.cons_append]

theorem wfmoney_body {C : List Char} (h : WFmoneyP C) :
    ∃ body, C = '$' :: body ∧ ∀ x ∈ body, isDotDigit x = true := by
  obtain ⟨ds, _, hall, hC | ⟨ds2, _, hall2, hC⟩⟩ := h
  · exact ⟨ds, hC, fun x hx => by simp [isDotDigit, hall x hx]⟩
  · refine ⟨ds ++ '.' :: ds2, by rw [hC]; rfl, ?_⟩
    intro x hx
    rcases List.mem_append.mp hx with h1 | h2
    · simp [isDotDigit, hall x h1]
    · rcases List.mem_cons.mp h2 with rfl | h3
      · decide
      · simp [isDotDigit, hall2 x h3]

theorem goodDose_props {D : List Char} (h : goodDoseB D = true) :
    ∀ ch ∈ D, ch ≠ ')' ∧ ch ≠ '\n' ∧ ch ≠ '|' := by
  intro ch hch
  have hh := List.all_eq_true.mp h ch hch
  simp only [Bool.and_eq_true, bne_iff_ne, ne_eq] at hh
  exact ⟨hh.1.1, hh.1.2, hh.2⟩

theorem lazyInner_seg : ∀ (D : List Char) (rest : List Char),
    (∀ ch ∈ D, ch ≠ ')' ∧ ch ≠ '\n') →
    lazyInner (D ++ ')' :: rest) = some (D, rest) := by
  intro D
  induction D with
  | nil =>
    intro rest _
    rw [List.nil_append]
    rfl
  | cons c D ih =>
    intro rest hg
    obtain ⟨h1, h2⟩ := hg c (List.mem_cons_self c D)
    rw [List.cons_append]
    rw [show lazyInner (c :: (D ++ ')' :: rest))
        = if c = ')' then some ([], D ++ ')' :: rest)
          else if c = '\n' then none
          else (lazyInner (D ++ ')' :: rest)).map (fun p => (c :: p.1, p.2)) from rfl]
    rw [if_neg h1, if_neg h2, ih rest (fun ch hch => hg ch (List.mem_cons_of_mem c hch))]
    rfl

theorem tailM_seg (D : List Char) (rest : List Char) (hD : goodDoseB D = true) :
    tailM (' ' :: '(' :: (D ++ ')' :: rest)) = some (D, rest) := by
  rw [show tailM (' ' :: '(' :: (D ++ ')' :: rest))
      = lazyInner (D ++ ')' :: rest) from rfl]
  exact lazyInner_seg D rest (fun ch hch =>
    ⟨(goodDose_props hD ch hch).1, (goodDose_props hD ch hch).2.1⟩)

theorem findFirst_cons_some {α β : Type} (f : α → Option β) (a : α) (l : List α)
    (b : β) (h : f a = some b) : findFirst f (a :: l) = some b := by
  rw [show findFirst f (a :: l)
      = (match f a with | some b => some b | none => findFirst f l) from rfl, h]

theorem matchDCAt_skip (c : Char) (s : List Char) (hc : c ≠ '$') :
    matchDCAt (c :: s) = none := by
  have hm : moneyM (c :: s) = [] := moneyM_nil_of_ne c s hc
  unfold matchDCAt group1M rangeM
  rw [hm]
  rfl

theorem matchDCAt_seg (C D rest : List Char) (hC : WFcostP C) (hD : goodDoseB D = true) :
    matchDCAt (C ++ ' ' :: '(' :: (D ++ ')' :: rest)) = some ((C, D), rest) := by
  have htail := tailM_seg D rest hD
  rcases hC with hm | ⟨m1, m2, h1, h2, hCr⟩
  · obtain ⟨jm, hjm⟩ := moneyM_headP hm ' ' ('(' :: (D ++ ')' :: rest)) (by decide) (by decide)
    have hr : rangeM (C ++ ' ' :: '(' :: (D ++ ')' :: rest)) = [] := by
      obtain ⟨body, hCb, hball⟩ := wfmoney_body hm
      rw [hCb, List.cons_append]
      exact rangeM_nil body ' ' ('(' :: (D ++ ')' :: rest)) hball (by decide) (by decide)
    unfold matchDCAt group1M
    rw [hr, List.nil_append, hjm]
    apply findFirst_cons_some
    show (tailM (' ' :: '(' :: (D ++ ')' :: rest))).map (fun t => ((C, t.1), t.2))
      = some ((C, D), rest)
    rw [htail]
    rfl
  · subst hCr
    obtain ⟨jr, hjr⟩ :=
      rangeM_head m1 m2 ('(' :: (D ++ ')' :: rest)) h1 h2 ' ' (by decide) (by decide)
    unfold matchDCAt group1M
    rw [hjr, List.cons_append]
    apply findFirst_cons_some
    show (tailM (' ' :: '(' :: (D ++ ')' :: rest))).map (fun t => ((m1 ++ '-' :: m2, t.1), t.2))
      = some ((m1 ++ '-' :: m2, D), rest)
    rw [htail]
    rfl

/-! ### C8, stage 4: `findall` over the comma-joined segments -/

theorem findallAux_succ_pos (f : Nat) (c : Char) (s : List Char)
    (g : List Char × List Char) (r : List Char)
    (h : matchDCAt (c :: s) = some (g, r)) :
    findallAux (f + 1) (c :: s) = g :: findallAux f r := by
  rw [show findallAux (f + 1) (c :: s)
      = (match matchDCAt (c :: s) with
         | some (g, r) => g :: findallAux f r
         | none => findallAux f s) from rfl, h]

theorem findallAux_succ_neg (f : Nat) (c : Char) (s : List Char)
    (h : matchDCAt (c :: s) = none) :
    findallAux (f + 1) (c :: s) = findallAux f s := by
  rw [show findallAux (f + 1) (c :: s)
      = (match matchDCAt (c :: s) with
         | some (g, r) => g :: findallAux f r
         | none => findallAux f s) from rfl, h]

theorem findallAux_nil (f : Nat) : findallAux f [] = [] := by
  cases f with
  | zero => rfl
  | succ g => rfl

theorem findall_join :
    ∀ (dcs : List (String × String)),
      (∀ d ∈ dcs, WFcostP d.1.data ∧ goodDoseB d.2.data = true) →
      ∀ fuel, (joinComma (dcs.map segFn)).length ≤ fuel →
      findallAux fuel (joinComma (dcs.map segFn))
        = dcs.map (fun d => (d.1.data, d.2.data)) := by
  intro dcs
  induction dcs with
  | nil =>
    intro _ fuel _
    rw [show joinComma (([] : List (String × String)).map segFn) = [] from rfl,
      findallAux_nil, List.map_nil]
  | cons d dcs ih =>
    intro hall fuel hfuel
    obtain ⟨hC, hD⟩ := hall d (List.mem_cons_self d dcs)
    obtain ⟨t0, ht0⟩ := wfcost_cons hC
    cases dcs with
    | nil =>
      have hform : joinComma ([d].map segFn)
          = d.1.data ++ ' ' :: '(' :: (d.2.data ++ ')' :: ([] : List Char)) := by
        rw [show joinComma ([d].map segFn) = segFn d from rfl]
        simp [segFn]
      rw [hform] at hfuel ⊢
      cases fuel with
      | zero =>
        exfalso
        rw [ht0] at hfuel
        simp [List.length_append] at hfuel
      | succ f =>
        have hmatch := matchDCAt_seg d.1.data d.2.data [] hC hD
        have hstep : findallAux (f + 1)
            (d.1.data ++ ' ' :: '(' :: (d.2.data ++ ')' :: ([] : List Char)))
            = (d.1.data, d.2.data) :: findallAux f [] := by
          rw [ht0, List.cons_append] at hmatch ⊢
          exact findallAux_succ_pos f '$' _ _ _ hmatch
        rw [hstep, findallAux_nil]
        rfl
    | cons d2 dcs2 =>
      have hform : joinComma ((d :: d2 :: dcs2).map segFn)
          = d.1.data ++ ' ' :: '(' :: (d.2.data
            ++ ')' :: (',' :: ' ' :: joinComma ((d2 :: dcs2).map segFn))) := by
        rw [show joinComma ((d :: d2 :: dcs2).map segFn)
            = segFn d ++ ',' :: ' ' :: joinComma ((d2 :: dcs2).map segFn) from rfl]
        simp [segFn]
      rw [hform] at hfuel ⊢
      have hlen : (joinComma ((d2 :: dcs2).map segFn)).length + 3 ≤ fuel := by
        rw [ht0] at hfuel
        simp only [List.length_append, List.length_cons] at hfuel
        omega
      obtain ⟨f2, rfl⟩ : ∃ f2, fuel = f2 + 3 := ⟨fuel - 3, by omega⟩
      have hmatch := matchDCAt_seg d.1.data d.2.data
        (',' :: ' ' :: joinComma ((d2 :: dcs2).map segFn)) hC hD
      have hstep1 : findallAux (f2 + 3)
          (d.1.data ++ ' ' :: '(' :: (d.2.data
            ++ ')' :: (',' :: ' ' :: joinComma ((d2 :: dcs2).map segFn))))
          = (d.1.data, d.2.data)
            :: findallAux (f2 + 2) (',' :: ' ' :: joinComma ((d2 :: dcs2).map segFn)) := by
        rw [ht0, List.cons_append] at hmatch ⊢
        exact findallAux_succ_pos (f2 + 2) '$' _ _ _ hmatch
      have hstep2 : findallAux (f2 + 2) (',' :: ' ' :: joinComma ((d2 :: dcs2).map segFn))
          = findallAux (f2 + 1) (' ' :: joinComma ((d2 :: dcs2).map segFn)) :=
        findallAux_succ_neg (f2 + 1) ',' _ (matchDCAt_skip ',' _ (by decide))
      have hstep3 : findallAux (f2 + 1) (' ' :: joinComma ((d2 :: dcs2).map segFn))
          = findallAux f2 (joinComma ((d2 :: dcs2).map segFn)) :=
        findallAux_succ_neg f2 ' ' _ (matchDCAt_skip ' ' _ (by decide))
      rw [hstep1, hstep2, hstep3,
        ih (fun d' hd' => hall d' (List.mem_cons_of_mem d hd')) f2 (by omega)]
      rfl

/-! ### C8, stage 5: the parsing side (`lstrip`, `rstrip`, `split`, `strip`) -/

theorem dropWhile_ws_pipe : ∀ (u w : List Char),
    (u ++ '|' :: w).dropWhile isPySpace = u.dropWhile isPySpace ++ '|' :: w := by
  intro u
  induction u with
  | nil =>
    intro w
    rw [List.nil_append, List.dropWhile_cons_of_neg (by decide)]
    rfl
  | cons c u ih =>
    intro w
    by_cases hc : isPySpace c = true
    · rw [List.cons_append, List.dropWhile_cons_of_pos hc, List.dropWhile_cons_of_pos hc, ih]
    · rw [List.cons_append, List.dropWhile_cons_of_neg hc, List.dropWhile_cons_of_neg hc,
        List.cons_append]

theorem pyRstrip_pipe (A B : List Char) :
    pyRstrip (A ++ '|' :: B) = A ++ '|' :: pyRstrip B := by
  unfold pyRstrip
  rw [show (A ++ '|' :: B).reverse = B.reverse ++ '|' :: A.reverse by simp]
  rw [dropWhile_ws_pipe]
  rw [List.reverse_append]
  simp

theorem splitOnChar_pipe : ∀ (A B : List Char), (∀ c ∈ A, c ≠ '|') →
    splitOnChar '|' (A ++ '|' :: B) = A :: splitOnChar '|' B := by
  intro A
  induction A with
  | nil =>
    intro B _
    rw [List.nil_append]
    rfl
  | cons a A ih =>
    intro B hA
    rw [List.cons_append]
    rw [show splitOnChar '|' (a :: (A ++ '|' :: B))
        = (if a = '|' then [] :: splitOnChar '|' (A ++ '|' :: B)
           else match splitOnChar '|' (A ++ '|' :: B) with
             | f :: fs => (a :: f) :: fs
             | [] => [[a]]) from rfl]
    rw [if_neg (hA a (List.mem_cons_self a A)),
      ih B (fun c hc => hA c (List.mem_cons_of_mem a hc))]

theorem pyRstrip_last (x : List Char) (cl : Char) (m' : List Char)
    (hx : x.reverse = cl :: m') (hcl : isPySpace cl = false) :
    pyRstrip (x ++ [' ']) = x := by
  unfold pyRstrip
  rw [show (x ++ [' ']).reverse = ' ' :: x.reverse by simp]
  rw [hx, List.dropWhile_cons_of_pos (by decide),
    List.dropWhile_cons_of_neg (by simp [hcl]), ← hx, List.reverse_reverse]

theorem pyStrip_field (c0 : Char) (m : List Char) (cl : Char) (m' : List Char)
    (hc0 : isPySpace c0 = false) (hrev : (c0 :: m).reverse = cl :: m')
    (hcl : isPySpace cl = false) :
    pyStrip ((c0 :: m) ++ [' ']) = c0 :: m := by
  unfold pyStrip
  rw [List.cons_append, List.dropWhile_cons_of_neg (by simp [hc0]), ← List.cons_append]
  exact pyRstrip_last (c0 :: m) cl m' hrev hcl

theorem pyStrip_mid (c0 : Char) (m : List Char) (cl : Char) (m' : List Char)
    (hc0 : isPySpace c0 = false) (hrev : (c0 :: m).reverse = cl :: m')
    (hcl : isPySpace cl = false) :
    pyStrip (' ' :: ((c0 :: m) ++ [' '])) = c0 :: m := by
  unfold pyStrip
  rw [List.dropWhile_cons_of_pos (by decide), List.cons_append,
    List.dropWhile_cons_of_neg (by simp [hc0]), ← List.cons_append]
  exact pyRstrip_last (c0 :: m) cl m' hrev hcl

theorem mem_joinComma : ∀ (l : List (List Char)) (c : Char),
    c ∈ joinComma l → (∃ x ∈ l, c ∈ x) ∨ c = ',' ∨ c = ' ' := by
  intro l
  induction l with
  | nil => intro c hc; cases hc
  | cons x rest ih =>
    intro c hc
    cases rest with
    | nil => exact Or.inl ⟨x, List.mem_cons_self x [], hc⟩
    | cons y rest2 =>
      rw [show joinComma (x :: y :: rest2) = x ++ ',' :: ' ' :: joinComma (y :: rest2)
        from rfl] at hc
      rcases List.mem_append.mp hc with hx | hy
      · exact Or.inl ⟨x, List.mem_cons_self x _, hx⟩
      · rcases List.mem_cons.mp hy with rfl | hy2
        · exact Or.inr (Or.inl rfl)
        · rcases List.mem_cons.mp hy2 with rfl | hy3
          · exact Or.inr (Or.inr rfl)
          · rcases ih c hy3 with ⟨z, hz, hcz⟩ | h | h
            · exact Or.inl ⟨z, List.mem_cons_of_mem x hz, hcz⟩
            · exact Or.inr (Or.inl h)
            · exact Or.inr (Or.inr h)

theorem mem_segFn (d : String × String) (c : Char) (h : c ∈ segFn d) :
    c ∈ d.1.data ∨ c ∈ d.2.data ∨ c = ' ' ∨ c = '(' ∨ c = ')' := by
  unfold segFn at h
  rcases List.mem_append.mp h with h12 | h4
  · rcases List.mem_append.mp h12 with h1 | h3
    · exact Or.inl h1
    · rcases List.mem_cons.mp h3 with rfl | h5
      · exact Or.inr (Or.inr (Or.inl rfl))
      · rcases List.mem_cons.mp h5 with rfl | h6
        · exact Or.inr (Or.inr (Or.inr (Or.inl rfl)))
        · exact Or.inr (Or.inl h6)
  · rcases List.mem_singleton.mp h4 with rfl
    exact Or.inr (Or.inr (Or.inr (Or.inr rfl)))

theorem J_no_pipe (dcs : List (String × String))
    (h : ∀ d ∈ dcs, WFcostP d.1.data ∧ goodDoseB d.2.data = true) :
    ∀ c ∈ joinComma (dcs.map segFn), c ≠ '|' := by
  intro c hc
  rcases mem_joinComma _ c hc with ⟨x, hx, hcx⟩ | rfl | rfl
  · rw [List.mem_map] at hx
    obtain ⟨d, hd, rfl⟩ := hx
    rcases mem_segFn d c hcx with h1 | h2 | rfl | rfl | rfl
    · rcases wfcost_chars (h d hd).1 c h1 with rfl | rfl | rfl | hdig
      · decide
      · decide
      · decide
      · intro he
        rw [he] at hdig
        exact absurd hdig (by decide)
    · exact (goodDose_props (h d hd).2 c h2).2.2
    · decide
    · decide
    · decide
  · decide
  · decide

theorem segFn_head (d : String × String) (t0 : List Char) (ht0 : d.1.data = '$' :: t0) :
    segFn d = '$' :: (t0 ++ (' ' :: '(' :: d.2.data ++ [')'])) := by
  unfold segFn
  rw [ht0]
  simp

theorem joinComma_head (x : List Char) (rest : List (List Char)) (c : Char) (u : List Char)
    (hx : x = c :: u) : ∃ v, joinComma (x :: rest) = c :: v := by
  cases rest with
  | nil => exact ⟨u, hx⟩
  | cons y rest2 =>
    rw [show joinComma (x :: y :: rest2) = x ++ ',' :: ' ' :: joinComma (y :: rest2)
      from rfl, hx, List.cons_append]
    exact ⟨u ++ ',' :: ' ' :: joinComma (y :: rest2), rfl⟩

theorem joinComma_rev_seg : ∀ (dcs : List (String × String)) (d : String × String),
    ∃ v, (joinComma ((d :: dcs).map segFn)).reverse = ')' :: v := by
  intro dcs
  induction dcs with
  | nil =>
    intro d
    apply Exists.intro
    rw [show joinComma ([d].map segFn) = segFn d from rfl]
    unfold segFn
    simp
    rfl
  | cons d2 dcs2 ih =>
    intro d
    obtain ⟨v, hv⟩ := ih d2
    apply Exists.intro
    rw [show joinComma ((d :: d2 :: dcs2).map segFn)
        = segFn d ++ ',' :: ' ' :: joinComma ((d2 :: dcs2).map segFn) from rfl]
    rw [List.reverse_append]
    rw [show (',' :: ' ' :: joinComma ((d2 :: dcs2).map segFn)).reverse
        = (joinComma ((d2 :: dcs2).map segFn)).reverse ++ [' ', ','] by simp]
    rw [hv]
    simp only [List.cons_append]
    rfl

theorem wfName_props {N : List Char} (h : wfNameB N = true) :
    ∃ c0 m, N = c0 :: m ∧ c0 ≠ '~' ∧ c0 ≠ '>' ∧ isPySpace c0 = false
      ∧ (∃ cl m', N.reverse = cl :: m' ∧ isPySpace cl = false)
      ∧ (∀ c ∈ N, c ≠ '|') := by
  unfold wfNameB at h
  cases N with
  | nil => simp at h
  | cons c0 m =>
    rw [Bool.and_eq_true, Bool.and_eq_true] at h
    obtain ⟨⟨h1, h2⟩, h3⟩ := h
    have h1' : (!(c0 == '~' || c0 == '>' || isPySpace c0)) = true := h1
    have hc1 : c0 ≠ '~' := by intro he; rw [he] at h1'; simp at h1'
    have hc2 : c0 ≠ '>' := by intro he; rw [he] at h1'; simp at h1'
    have hc3 : isPySpace c0 = false := by
      by_cases hsp : isPySpace c0 = true
      · rw [hsp] at h1'; simp at h1'
      · simpa using hsp
    have hpipe : ∀ c ∈ c0 :: m, c ≠ '|' := by
      intro c hc
      have hcc := List.all_eq_true.mp h3 c hc
      simpa using hcc
    refine ⟨c0, m, rfl, hc1, hc2, hc3, ?_, hpipe⟩
    cases hrev : (c0 :: m).reverse with
    | nil => rw [hrev] at h2; simp at h2
    | cons cl m' =>
      rw [hrev] at h2
      exact ⟨cl, m', rfl, by simpa using h2⟩

theorem pyLstripGt_stop (c0 : Char) (t : List Char) (h1 : c0 ≠ '>') (h2 : c0 ≠ ' ') :
    pyLstripGt (['>', ' '] ++ c0 :: t) = c0 :: t := by
  unfold pyLstripGt
  exact dropWhile_stop _ ['>', ' '] c0 t (by decide) (by simp [h1, h2])

theorem ofRecord_cons (f0 f1 : String) (rest : List String) :
    ofRecord (f0 :: f1 :: rest)
      = (match set_NAMEandBLACKLISTED f0 with
         | none => none
         | some nb =>
           some ⟨nb.1, nb.2, get_DOSECOST f1, [], rest.getD 0 "", rest.getD 1 ""⟩) := rfl

theorem field1_strip (dcs : List (String × String))
    (h : ∀ d ∈ dcs, WFcostP d.1.data ∧ goodDoseB d.2.data = true) :
    pyStrip (' ' :: (joinComma (dcs.map segFn) ++ [' '])) = joinComma (dcs.map segFn) := by
  cases dcs with
  | nil => rfl
  | cons d dcs2 =>
    obtain ⟨t0, ht0⟩ := wfcost_cons (h d (List.mem_cons_self d dcs2)).1
    obtain ⟨v, hv⟩ := joinComma_head (segFn d) (dcs2.map segFn) '$'
      (t0 ++ (' ' :: '(' :: d.2.data ++ [')'])) (segFn_head d t0 ht0)
    obtain ⟨w, hw⟩ := joinComma_rev_seg dcs2 d
    have hv' : joinComma ((d :: dcs2).map segFn) = '$' :: v := hv
    have hw' : ('$' :: v).reverse = ')' :: w := by rw [← hv']; exact hw
    rw [hv']
    exact pyStrip_mid '$' v ')' w (by decide) hw' (by decide)

theorem field1_get (dcs : List (String × String))
    (h : ∀ d ∈ dcs, WFcostP d.1.data ∧ goodDoseB d.2.data = true) :
    get_DOSECOST (String.mk (joinComma (dcs.map segFn))) = dcs := by
  unfold get_DOSECOST
  rw [show (String.mk (joinComma (dcs.map segFn))).data
      = joinComma (dcs.map segFn) from rfl]
  rw [findall_join dcs h _ (Nat.le_refl _)]
  rw [List.map_map]
  exact List.map_id dcs

/-- C8 (corrected): with an empty incoming price table, a well-formed
non-blacklistable name that the `_NAMEGARBAGE_` pattern does not rewrite
(no constraint needed when the record is blacklisted), cost strings fully
matched by the money pattern, dose strings free of `)`, newline and `|`,
and pairwise-distinct doses, serializing the record with `_to_markdown`
after `_set_PRICETABLE` and re-ingesting the line through
`read_md`/`parse_mddata`/`FormularyRecord` reproduces the record's name,
blacklist flag and dose/cost pairs exactly. -/
theorem claim8_amended (r : FormularyRecord) (cat : String)
    (hpt : r.PRICETABLE = [])
    (hname : wfNameB r.NAME.data = true)
    (hgarbage : r.BLACKLISTED = false →
      findName1 r.NAME.data = none ∧ findName2 r.NAME.data = none)
    (hdc : ∀ d ∈ r.DOSECOST, WFcostB d.1.data = true ∧ goodDoseB d.2.data = true)
    (hdistinct : (r.DOSECOST.map Prod.snd).Nodup) :
    ∃ r', reparseLine (to_markdown (set_PRICETABLE r)) cat = some r'
      ∧ r'.NAME = r.NAME ∧ r'.BLACKLISTED = r.BLACKLISTED
      ∧ r'.DOSECOST = r.DOSECOST := by
  have hdcP : ∀ d ∈ r.DOSECOST, WFcostP d.1.data ∧ goodDoseB d.2.data = true :=
    fun d hd => ⟨wfcost_sound _ (hdc d hd).1, (hdc d hd).2⟩
  obtain ⟨c0, m, hN, hc0t, hc0g, hc0s, ⟨cl, m', hrevN, hcls⟩, hNpipe⟩ := wfName_props hname
  rw [hN] at hrevN
  have hc0sp : c0 ≠ ' ' := by
    intro he
    rw [he] at hc0s
    exact absurd hc0s (by decide)
  have hNameEq : String.mk (c0 :: m) = r.NAME := by rw [← hN, string_mk_data]
  have hline := to_markdown_set r hpt hdistinct
  have hpipe1 : ∀ c ∈ ' ' :: (joinComma (r.DOSECOST.map segFn) ++ [' ']), c ≠ '|' := by
    intro c hcm
    rcases List.mem_cons.mp hcm with rfl | h1
    · decide
    · rcases List.mem_append.mp h1 with h2 | h3
      · exact J_no_pipe r.DOSECOST hdcP c h2
      · rw [List.mem_singleton] at h3
        subst h3
        decide
  cases hbl : r.BLACKLISTED with
  | false =>
    have hpipe0 : ∀ c ∈ (c0 :: m) ++ [' '], c ≠ '|' := by
      intro c hcm
      rcases List.mem_append.mp hcm with h1 | h2
      · exact hNpipe c (by rw [hN]; exact h1)
      · rw [List.mem_singleton] at h2
        subst h2
        decide
    have hg := hgarbage hbl
    rw [hN] at hg
    have hsetN : set_NAMEandBLACKLISTED (String.mk (c0 :: m))
        = some (String.mk (c0 :: m), false) := by
      rw [show set_NAMEandBLACKLISTED (String.mk (c0 :: m))
          = (if c0 = '~' then
               some (String.mk ((c0 :: m).dropWhile (fun x => x == '~')), true)
             else
               match findName1 (c0 :: m) with
               | some a => some (String.mk a, false)
               | none =>
                 match findName2 (c0 :: m) with
                 | some a => some (String.mk a, false)
                 | none => some (String.mk (c0 :: m), false)) from rfl]
      rw [if_neg hc0t, hg.1, hg.2]
    have hFULL : to_markdown (set_PRICETABLE r) ++ ' ' :: '|' :: ' ' :: cat.data
        = ['>', ' '] ++ c0 :: ((m ++ [' '])
            ++ '|' :: ((' ' :: (joinComma (r.DOSECOST.map segFn) ++ [' ']))
            ++ '|' :: ((' ' :: (r.SUBCATEGORY.data ++ [' ']))
            ++ '|' :: (' ' :: cat.data)))) := by
      rw [hline, hbl, hN]
      simp
    have hls : pyLstripGt (to_markdown (set_PRICETABLE r) ++ ' ' :: '|' :: ' ' :: cat.data)
        = ((c0 :: m) ++ [' '])
            ++ '|' :: ((' ' :: (joinComma (r.DOSECOST.map segFn) ++ [' ']))
            ++ '|' :: ((' ' :: (r.SUBCATEGORY.data ++ [' ']))
            ++ '|' :: (' ' :: cat.data))) := by
      rw [hFULL, pyLstripGt_stop c0 _ hc0g hc0sp]
      simp
    have hparse : parse_mddata_line
        (to_markdown (set_PRICETABLE r) ++ ' ' :: '|' :: ' ' :: cat.data)
        = String.mk (c0 :: m) :: String.mk (joinComma (r.DOSECOST.map segFn))
          :: (splitOnChar '|' ((' ' :: (r.SUBCATEGORY.data ++ [' ']))
              ++ '|' :: pyRstrip (' ' :: cat.data))).map (fun f => String.mk (pyStrip f)) := by
      unfold parse_mddata_line
      rw [hls, pyRstrip_pipe, pyRstrip_pipe, pyRstrip_pipe]
      rw [splitOnChar_pipe ((c0 :: m) ++ [' ']) _ hpipe0]
      rw [splitOnChar_pipe (' ' :: (joinComma (r.DOSECOST.map segFn) ++ [' '])) _ hpipe1]
      rw [List.map_cons, List.map_cons]
      rw [pyStrip_field c0 m cl m' hc0s hrevN hcls]
      rw [field1_strip r.DOSECOST hdcP]
    obtain ⟨s2, s3, hocr⟩ : ∃ s2 s3,
        reparseLine (to_markdown (set_PRICETABLE r)) cat
          = some ⟨String.mk (c0 :: m), false, r.DOSECOST, [], s2, s3⟩ := by
      apply Exists.intro
      apply Exists.intro
      show ofRecord (parse_mddata_line
        (to_markdown (set_PRICETABLE r) ++ ' ' :: '|' :: ' ' :: cat.data)) = _
      rw [hparse, ofRecord_cons, hsetN, field1_get r.DOSECOST hdcP]
    exact ⟨_, hocr, hNameEq, rfl, rfl⟩
  | true =>
    have hpipe0 : ∀ c ∈ ('~' :: c0 :: m) ++ [' '], c ≠ '|' := by
      intro c hcm
      rcases List.mem_append.mp hcm with h1 | h2
      · rcases List.mem_cons.mp h1 with rfl | h1'
        · decide
        · exact hNpipe c (by rw [hN]; exact h1')
      · rw [List.mem_singleton] at h2
        subst h2
        decide
    have hrev2 : ('~' :: c0 :: m).reverse = cl :: (m' ++ ['~']) := by
      rw [show ('~' :: c0 :: m).reverse = (c0 :: m).reverse ++ ['~'] by simp, hrevN,
        List.cons_append]
    have hsetN : set_NAMEandBLACKLISTED (String.mk ('~' :: c0 :: m))
        = some (String.mk (c0 :: m), true) := by
      rw [show set_NAMEandBLACKLISTED (String.mk ('~' :: c0 :: m))
          = (if ('~' : Char) = '~' then
               some (String.mk (('~' :: c0 :: m).dropWhile (fun x => x == '~')), true)
             else
               match findName1 ('~' :: c0 :: m) with
               | some a => some (String.mk a, false)
               | none =>
                 match findName2 ('~' :: c0 :: m) with
                 | some a => some (String.mk a, false)
                 | none => some (String.mk ('~' :: c0 :: m), false)) from rfl]
      rw [if_pos rfl, List.dropWhile_cons_of_pos (by decide),
        List.dropWhile_cons_of_neg (by simp [hc0t])]
    have hFULL : to_markdown (set_PRICETABLE r) ++ ' ' :: '|' :: ' ' :: cat.data
        = ['>', ' '] ++ '~' :: (((c0 :: m) ++ [' '])
            ++ '|' :: ((' ' :: (joinComma (r.DOSECOST.map segFn) ++ [' ']))
            ++ '|' :: ((' ' :: (r.SUBCATEGORY.data ++ [' ']))
            ++ '|' :: (' ' :: cat.data)))) := by
      rw [hline, hbl, hN]
      simp
    have hls : pyLstripGt (to_markdown (set_PRICETABLE r) ++ ' ' :: '|' :: ' ' :: cat.data)
        = (('~' :: c0 :: m) ++ [' '])
            ++ '|' :: ((' ' :: (joinComma (r.DOSECOST.map segFn) ++ [' ']))
            ++ '|' :: ((' ' :: (r.SUBCATEGORY.data ++ [' ']))
            ++ '|' :: (' ' :: cat.data))) := by
      rw [hFULL, pyLstripGt_stop '~' _ (by decide) (by decide)]
      simp
    have hparse : parse_mddata_line
        (to_markdown (set_PRICETABLE r) ++ ' ' :: '|' :: ' ' :: cat.data)
        = String.mk ('~' :: c0 :: m) :: String.mk (joinComma (r.DOSECOST.map segFn))
          :: (splitOnChar '|' ((' ' :: (r.SUBCATEGORY.data ++ [' ']))
              ++ '|' :: pyRstrip (' ' :: cat.data))).map (fun f => String.mk (pyStrip f)) := by
      unfold parse_mddata_line
      rw [hls, pyRstrip_pipe, pyRstrip_pipe, pyRstrip_pipe]
      rw [splitOnChar_pipe (('~' :: c0 :: m) ++ [' ']) _ hpipe0]
      rw [splitOnChar_pipe (' ' :: (joinComma (r.DOSECOST.map segFn) ++ [' '])) _ hpipe1]
      rw [List.map_cons, List.map_cons]
      rw [pyStrip_field '~' (c0 :: m) cl (m' ++ ['~']) (by decide) hrev2 hcls]
      rw [field1_strip r.DOSECOST hdcP]
    obtain ⟨s2, s3, hocr⟩ : ∃ s2 s3,
        reparseLine (to_markdown (set_PRICETABLE r)) cat
          = some ⟨String.mk (c0 :: m), true, r.DOSECOST, [], s2, s3⟩ := by
      apply Exists.intro
      apply Exists.intro
      show ofRecord (parse_mddata_line
        (to_markdown (set_PRICETABLE r) ++ ' ' :: '|' :: ' ' :: cat.data)) = _
      rw [hparse, ofRecord_cons, hsetN, field1_get r.DOSECOST hdcP]
    exact ⟨_, hocr, hNameEq, rfl, rfl⟩

/-- C8 witness: a concrete two-dose record (one simple cost, one range cost)
round-trips through `_to_markdown` and re-parsing. -/
theorem claim8_witness :
    ∃ r', reparseLine (to_markdown (set_PRICETABLE
        ⟨"Ibuprofen", false, [("$0.50", "200mg"), ("$1.00-$1.50", "400mg")],
         [], "oral", "CAT"⟩)) "CAT" = some r'
      ∧ r'.NAME = "Ibuprofen" ∧ r'.BLACKLISTED = false
      ∧ r'.DOSECOST = [("$0.50", "200mg"), ("$1.00-$1.50", "400mg")] :=
  claim8_amended
    ⟨"Ibuprofen", false, [("$0.50", "200mg"), ("$1.00-$1.50", "400mg")],
     [], "oral", "CAT"⟩ "CAT" rfl (by decide)
    (fun _ => ⟨by decide, by decide⟩) (by decide) (by decide)

end Rxparse
